/-
Verification development for the patentpack name-resolution core.

This file gives a shallow embedding, in Lean 4, of the parts of the
patentpack source that the specification's claims are about:

  * `src/patentpack/common/orgnorm/core.py`      (norm, strip_adr_suffix, cmp_norm)
  * `src/patentpack/common/orgnorm/stem.py`      (stem, cmp_stem, is_adr_like_name)
  * `src/patentpack/common/orgnorm/constants.py` (regex constants and tables)
  * `src/patentpack/common/orgnorm/variants.py`  (expand_query_variants and helpers)
  * `src/patentpack/idmap/variants.py`           (build_bucketed_variants)
  * `src/patentpack/idmap/cache.py`              (NamePlanCache)
  * `src/patentpack/idmap/iterator.py`           (_Cache adapter, eq_then_discovery resolver)
  * `src/patentpack/idmap/discovery.py`          (_norm_words, boundary guard)
  * `src/patentpack/gleif/match.py`              (rule_for, pick_top_matches)

Modelling conventions:

  * Strings are `List Char`/`String`; Python `str` methods are embedded as
    recursive functions over `List Char`.
  * Python regular expressions are embedded as hand-written matchers with
    Python `re` semantics (leftmost match, ordered alternation, greedy
    optional items with backtracking); each matcher's doc comment cites the
    regex it implements.
  * Character predicates (`\w`, `isalnum`, `lower`, `upper`, `\s`) are
    modelled on their ASCII behaviour (`Char.isAlphanum`, `Char.toLower`,
    `Char.toUpper`, `Char.isWhitespace`); the Unicode-table-dependent
    Python stdlib functions used by `norm` (html.unescape, NFKD accent
    folding, NFKC, str.lower) are abstracted as a parameter record
    `UniModel`, with `asciiUni` as the model that is exact on ASCII input.
  * Fallible I/O (the cache's disk append) is modelled by giving both the
    success state (`put`) and the state observed when the append raises
    (`put_disk_fail`).
-/
import Mathlib

set_option maxRecDepth 10000
set_option linter.unusedVariables false

/-! ## Basic character and whitespace helpers -/

/-- Python `\s` / `str.isspace` on ASCII input. -/
def isWsC (c : Char) : Bool := c.isWhitespace

/-- Python `\w` (word character) on ASCII input: alphanumeric or underscore. -/
def isWordC (c : Char) : Bool := c.isAlphanum || c == '_'

/-- `Option`-valued wordness used for `\b` boundary tests; `none` (string edge)
is never a word character. -/
def isWordO : Option Char → Bool
  | none => false
  | some c => isWordC c

/-- A `\b` word boundary holds between two (optional) characters iff exactly
one side is a word character. -/
def isBoundary (p n : Option Char) : Bool := isWordO p != isWordO n

/-- Python `str.lstrip()` on ASCII input. -/
def lstripWs (l : List Char) : List Char := l.dropWhile isWsC

/-- Python `str.rstrip()` on ASCII input. -/
def rstripWs (l : List Char) : List Char := (l.reverse.dropWhile isWsC).reverse

/-- Python `str.strip()` on ASCII input. -/
def stripWs (l : List Char) : List Char := rstripWs (lstripWs l)

/-- Python `str.split()` (split on whitespace runs, dropping empty pieces). -/
def wordsChAux : List Char → List Char → List (List Char)
  | [], acc => if acc = [] then [] else [acc.reverse]
  | c :: cs, acc =>
    if isWsC c then
      (if acc = [] then wordsChAux cs [] else acc.reverse :: wordsChAux cs [])
    else wordsChAux cs (c :: acc)

/-- Python `str.split()`. -/
def wordsCh (l : List Char) : List (List Char) := wordsChAux l []

/-- Python `" ".join(ws)`. -/
def joinSp (ws : List (List Char)) : List Char := List.intercalate [' '] ws

/-- Python `" ".join(s.split())`: collapse whitespace runs to single spaces
and trim. -/
def joinWords (l : List Char) : List Char := joinSp (wordsCh l)

/-- Python `re.sub(r"\s+", " ", x)` (`SPACE_RE.sub(" ", x)`): every maximal
whitespace run becomes a single space, including at the ends. The Boolean
records whether we are inside a whitespace run already emitted as `' '`. -/
def wsRunsToSpaceAux : Bool → List Char → List Char
  | _, [] => []
  | inRun, c :: cs =>
    if isWsC c then
      (if inRun then wsRunsToSpaceAux true cs else ' ' :: wsRunsToSpaceAux true cs)
    else c :: wsRunsToSpaceAux false cs

/-- Python `SPACE_RE.sub(" ", x)`. -/
def wsRunsToSpace (l : List Char) : List Char := wsRunsToSpaceAux false l

/-- Case-insensitive ASCII character equality (Python `re.I` on ASCII). -/
def lcEq (a b : Char) : Bool := a.toLower == b.toLower

/-- ASCII uppercase of a string (`str.upper()` on ASCII input). -/
def upperChars (l : List Char) : List Char := l.map Char.toUpper

/-- ASCII lowercase of a string (`str.lower()` on ASCII input). -/
def lowerChars (l : List Char) : List Char := l.map Char.toLower

/-- Order-preserving de-duplication, as Python's
`seen = set(); [v for v in out if v not in seen ...]` / `dict.fromkeys`. -/
def dedupeL (l : List (List Char)) : List (List Char) :=
  l.foldl (fun acc v => if v ∈ acc then acc else acc ++ [v]) []

/-! ## A small regex engine

Each Python regex used by the source is embedded as a sequence (or ordered
alternation of sequences) of `RePat` items. `matchSeq` enumerates the
possible `(previous character, remaining input)` states in exactly Python
`re`'s backtracking preference order (greedy options first, alternation
branches in written order), so taking the head of the list reproduces
Python's match. -/

/-- One item of an embedded regex. -/
inductive RePat where
  /-- a case-insensitive literal -/
  | lit (s : List Char)
  /-- `\.?` -/
  | optDot
  /-- an optional single character, case-insensitive (e.g. `u?`, `/?`, `,?`) -/
  | optCh (c : Char)
  /-- an optional case-insensitive literal (e.g. `(?:oration)?`) -/
  | optLit (s : List Char)
  /-- `\s*` -/
  | ws0
  /-- `\s+` -/
  | ws1
  /-- `\b` -/
  | bnd
  /-- a single character from a set, case-insensitive (e.g. `[aà]`) -/
  | chSet (cs : List Char)
deriving Repr

/-- Consume a case-insensitive literal, returning the last consumed original
character and the rest. -/
def consumeCI : List Char → Option Char → List Char → Option (Option Char × List Char)
  | [], prev, l => some (prev, l)
  | _ :: _, _, [] => none
  | p :: ps, prev, c :: cs =>
    if lcEq p c then consumeCI ps (some c) cs else none

/-- All ways to drop leading whitespace, longest drop first (greedy `\s*`),
with the updated previous character. -/
def wsSplitsGreedy : Option Char → List Char → List (Option Char × List Char)
  | prev, [] => [(prev, [])]
  | prev, c :: cs =>
    if isWsC c then wsSplitsGreedy (some c) cs ++ [(prev, c :: cs)]
    else [(prev, c :: cs)]

/-- One step of the engine: the ordered list of successor states. -/
def stepPat : RePat → Option Char × List Char → List (Option Char × List Char)
  | .lit s, (prev, l) => (consumeCI s prev l).toList
  | .optDot, (prev, l) =>
    match l with
    | '.' :: r => [(some '.', r), (prev, l)]
    | _ => [(prev, l)]
  | .optCh c, (prev, l) =>
    match l with
    | d :: r => if lcEq c d then [(some d, r), (prev, l)] else [(prev, l)]
    | [] => [(prev, l)]
  | .optLit s, (prev, l) =>
    match consumeCI s prev l with
    | some st => [st, (prev, l)]
    | none => [(prev, l)]
  | .ws0, (prev, l) => wsSplitsGreedy prev l
  | .ws1, (prev, l) =>
    match l with
    | c :: cs => if isWsC c then wsSplitsGreedy (some c) cs else []
    | [] => []
  | .bnd, (prev, l) => if isBoundary prev l.head? then [(prev, l)] else []
  | .chSet cs, (prev, l) =>
    match l with
    | d :: r => if cs.any (fun c => lcEq c d) then [(some d, r)] else []
    | [] => []

/-- Match a sequence of pattern items; states in backtracking preference
order. -/
def matchSeq : List RePat → Option Char × List Char → List (Option Char × List Char)
  | [], st => [st]
  | p :: ps, st => (stepPat p st).flatMap (matchSeq ps)

/-- Try an ordered alternation of sequences at the current position; Python
tries the branches in written order and returns the first success. -/
def matchAlts (alts : List (List RePat)) (st : Option Char × List Char) :
    Option (Option Char × List Char) :=
  alts.findSome? (fun sq => (matchSeq sq st).head?)

/-- `re.search` (existence of a match at some position), scanning left to
right with the previous character tracked for `\b`. -/
def reSearchAux (alts : List (List RePat)) : Option Char → List Char → Bool
  | prev, l =>
    match matchAlts alts (prev, l) with
    | some _ => true
    | none =>
      match l with
      | [] => false
      | c :: cs => reSearchAux alts (some c) cs

/-- `pat.search(l)` as a Boolean. -/
def reSearch (alts : List (List RePat)) (l : List Char) : Bool :=
  reSearchAux alts none l

/-- `pat.sub(rep, l)`: replace every non-overlapping leftmost match by `rep`,
resuming after each match (fuel-bounded; every pattern in this file consumes
at least one character on a match, so `l.length + 1` fuel is exact). -/
def reSubAllFuel (alts : List (List RePat)) (rep : List Char) :
    Nat → Option Char → List Char → List Char
  | 0, _, l => l
  | Nat.succ n, prev, l =>
    match matchAlts alts (prev, l) with
    | some (p2, rest) =>
      if rest.length < l.length then rep ++ reSubAllFuel alts rep n p2 rest
      else
        match l with
        | [] => []
        | c :: cs => c :: reSubAllFuel alts rep n (some c) cs
    | none =>
      match l with
      | [] => []
      | c :: cs => c :: reSubAllFuel alts rep n (some c) cs

/-- `pat.sub(rep, l)`. -/
def reSubAll (alts : List (List RePat)) (rep : List Char) (l : List Char) : List Char :=
  reSubAllFuel alts rep (l.length + 1) none l

/-! ## orgnorm/core.py and orgnorm/stem.py -/

/-- The Unicode-table-dependent Python stdlib functions that `norm` calls,
abstracted as parameters: `html.unescape`, `_strip_accents`
(NFKD + drop combining marks), `unicodedata.normalize("NFKC", ·)` and
`str.lower`. -/
structure UniModel where
  unescape : List Char → List Char
  strip_accents : List Char → List Char
  nfkc : List Char → List Char
  lower : List Char → List Char

/-- The model of the stdlib functions on ASCII input: `html.unescape` is the
identity on strings without `&`, accent folding and NFKC are the identity on
ASCII, and `str.lower` is ASCII lowercasing. -/
def asciiUni : UniModel :=
  { unescape := fun l => l
    strip_accents := fun l => l
    nfkc := fun l => l
    lower := lowerChars }

/-- The `for _ in range(4): new = html.unescape(x); if new == x: break; x = new`
loop in `norm` (at most 4 unescape passes, stopping at a fixpoint). -/
def unescapeLoop (U : UniModel) : Nat → List Char → List Char
  | 0, x => x
  | Nat.succ n, x =>
    let nw := U.unescape x
    if nw = x then x else unescapeLoop U n nw

/-- `re.sub(r"&", " and ", s)` (`_ampersand_to_and`). -/
def ampToAnd (l : List Char) : List Char :=
  l.flatMap (fun c => if c = '&' then (" and ").data else [c])

/-- Does this whole suffix match `/(?:the|[A-Z]{2})$` (case-insensitive)? -/
def slashTagSuffix (l : List Char) : Bool :=
  (match l with
   | ['/', a, b, c] => lcEq a 't' && lcEq b 'h' && lcEq c 'e'
   | _ => false) ||
  (match l with
   | ['/', a, b] => a.isAlpha && b.isAlpha
   | _ => false)

/-- `TRAILING_SLASH_TAG_RE.sub("", s)` with
`TRAILING_SLASH_TAG_RE = re.compile(r"/(?:the|[A-Z]{2})$", re.I)`:
delete the leftmost end-anchored `/the` or `/`+two-letters tag. -/
def trailingSlashTagSub : List Char → List Char
  | [] => []
  | c :: cs => if slashTagSuffix (c :: cs) then [] else c :: trailingSlashTagSub cs

/-- The character class kept by the filter `re.sub` in `norm` (pattern
`[^\w& \- / \. ]+` — written here with extra spaces; the Python source has
none): word characters, `&`, `-`, `/`, `.` and the space character. -/
def normKeep (c : Char) : Bool :=
  isWordC c || c == '&' || c == '-' || c == '/' || c == '.' || c == ' '

/-- `re.sub(r"\b([a-z])\.(?=\s|$)", r"\1", x)`: collapse single-letter
abbreviations like `c.` to `c` when followed by whitespace or end of string.
The previous character is carried for the `\b` test; the lookahead character
is not consumed. -/
def singleLetterDotAux : Option Char → List Char → List Char
  | _, [] => []
  | _, [c] => [c]
  | prev, c :: '.' :: rest =>
    if isBoundary prev (some c) && ('a' ≤ c && c ≤ 'z') then
      (if rest = [] || rest.head?.any isWsC then
        c :: singleLetterDotAux (some '.') rest
      else c :: singleLetterDotAux (some c) ('.' :: rest))
    else c :: singleLetterDotAux (some c) ('.' :: rest)
  | _, c :: d :: rest => c :: singleLetterDotAux (some c) (d :: rest)

/-- `re.sub(r"\b([a-z])\.(?=\s|$)", r"\1", x)`. -/
def singleLetterDotSub (l : List Char) : List Char := singleLetterDotAux none l

/-- `re.sub(r"\.(?=\s|$)", "", x)`: remove any period directly followed by
whitespace or end of string. -/
def trailingDotSub : List Char → List Char
  | [] => []
  | c :: cs =>
    if c = '.' && (cs = [] || cs.head?.any isWsC) then trailingDotSub cs
    else c :: trailingDotSub cs

/-- `orgnorm.core.norm`, stage for stage:
strip → bounded html-unescape loop → accent folding → NFKC → `&`→` and ` →
lowercase → trailing slash-tag removal → character filter → single-letter-dot
collapse → trailing-period removal → whitespace collapse and strip.
(The Python `isinstance` guard returning `""` on non-string input has no
counterpart: inputs here are always strings.) -/
def norm (U : UniModel) (s : List Char) : List Char :=
  let x := stripWs s
  let x := unescapeLoop U 4 x
  let x := U.strip_accents x
  let x := U.nfkc x
  let x := ampToAnd x
  let x := U.lower x
  let x := trailingSlashTagSub x
  let x := x.filter normKeep
  let x := singleLetterDotSub x
  let x := trailingDotSub x
  stripWs (wsRunsToSpace x)

/-! ### The depositary-receipt tail regex

`ADR_SUFFIX_RE = re.compile(r"(?:\s*[-,]?\s*(?:adr(?:hedged)?|ads|gdr)(?:\s*\([^)]*\))?\s*)+$", re.I)`
(the same pattern appears inline in `variants._clean_base_for_variants`).
The sub deletes the leftmost end-anchored run of one or more "units". Each
unit consumes at least the three keyword characters, so membership of a
suffix in `(unit)+` is decided by a fuel-bounded nondeterministic matcher. -/

/-- All suffixes reachable by consuming leading whitespace (`\s*`). -/
def wsDrops : List Char → List (List Char)
  | [] => [[]]
  | c :: cs => (c :: cs) :: (if isWsC c then wsDrops cs else [])

/-- All suffixes reachable via `[-,]?`. -/
def punctDrops : List Char → List (List Char)
  | [] => [[]]
  | c :: cs => (c :: cs) :: (if c = '-' || c = ',' then [cs] else [])

/-- Consume a case-insensitive keyword, returning the rest. -/
def dropCI : List Char → List Char → Option (List Char)
  | [], l => some l
  | _ :: _, [] => none
  | p :: ps, c :: cs => if lcEq p c then dropCI ps cs else none

/-- All suffixes after one of `adr(?:hedged)?|ads|gdr` (both the short and
the `hedged` reading of `adrhedged` are offered). -/
def adrKwDrops (l : List Char) : List (List Char) :=
  [("adrhedged").data, ("adr").data, ("ads").data, ("gdr").data].filterMap
    (fun k => dropCI k l)

/-- All suffixes via the optional `(?:\s*\([^)]*\))?` parenthesised tail:
either skip it, or drop whitespace, a `(`, everything up to the first `)`,
and the `)`. -/
def parenDrops (l : List Char) : List (List Char) :=
  l :: (wsDrops l).filterMap (fun r =>
    match r with
    | '(' :: cs =>
      match cs.dropWhile (fun c => c ≠ ')') with
      | ')' :: rest => some rest
      | _ => none
    | _ => none)

/-- All suffixes after one ADR-tail unit
`\s*[-,]?\s*(?:adr(?:hedged)?|ads|gdr)(?:\s*\([^)]*\))?\s*`. -/
def adrUnitDrops (l : List Char) : List (List Char) :=
  (wsDrops l).flatMap (fun a =>
    (punctDrops a).flatMap (fun b =>
      (wsDrops b).flatMap (fun c =>
        (adrKwDrops c).flatMap (fun d =>
          (parenDrops d).flatMap wsDrops))))

/-- Does `l` belong to `(unit)+` (consuming all of `l`)? Fuel-bounded; each
unit consumes at least three characters, so `l.length` fuel is sufficient. -/
def adrPlusFuel : Nat → List Char → Bool
  | 0, _ => false
  | Nat.succ n, l =>
    (adrUnitDrops l).any (fun r =>
      decide (r.length < l.length) && (r.isEmpty || adrPlusFuel n r))

/-- Does the string match `(unit)+$` starting at its first character? -/
def adrTailMatches (l : List Char) : Bool := adrPlusFuel l.length l

/-- `ADR_SUFFIX_RE.sub("", x)`: delete the leftmost end-anchored ADR tail. -/
def adrSuffixSub : List Char → List Char
  | [] => []
  | c :: cs => if adrTailMatches (c :: cs) then [] else c :: adrSuffixSub cs

/-- `orgnorm.core.strip_adr_suffix`: `norm`, then `ADR_SUFFIX_RE.sub("", ·)`,
then `strip()`. -/
def strip_adr_suffix (U : UniModel) (s : List Char) : List Char :=
  stripWs (adrSuffixSub (norm U s))

/-- `orgnorm.core.cmp_norm`. -/
def cmp_norm (U : UniModel) (s : List Char) : List Char := strip_adr_suffix U s

/-- `ASCII_PAT = re.compile(r"[A-Za-z]")`; `orgnorm.core.name_has_ascii`. -/
def name_has_ascii (l : List Char) : Bool := l.any Char.isAlpha

/-- `ADR_PAT = re.compile(r"\b(adr|ads|gdr)\b|depositar|adrhedged", re.I)`. -/
def adrPatAlts : List (List RePat) :=
  [[.bnd, .lit ("adr").data, .bnd],
   [.bnd, .lit ("ads").data, .bnd],
   [.bnd, .lit ("gdr").data, .bnd],
   [.lit ("depositar").data],
   [.lit ("adrhedged").data]]

/-- `orgnorm.stem.is_adr_like_name`: `bool(ADR_PAT.search(name or ""))`. -/
def is_adr_like_name (l : List Char) : Bool := reSearch adrPatAlts l

/-- The branches of `SUFFIX_RE` from `orgnorm/constants.py`, in the regex's
written order; the full pattern is `\b(branch|…)\b\.?` with `re.I`. -/
def suffixReBranches : List (List RePat) :=
  [[.lit ("incorporated").data],
   [.lit ("inc").data],
   [.lit ("corp").data, .optLit ("oration").data],
   [.lit ("co").data, .optLit ("mpany").data],
   [.lit ("ltd").data],
   [.lit ("limited").data],
   [.lit ("llc").data],
   [.lit ("plc").data],
   [.lit ("a").data, .optDot, .lit ("g").data, .optDot],
   [.lit ("ag").data],
   [.lit ("se").data],
   [.lit ("s").data, .optDot, .lit ("e").data, .optDot],
   [.lit ("n").data, .optDot, .lit ("v").data, .optDot],
   [.lit ("nv").data],
   [.lit ("oy").data],
   [.lit ("oyj").data],
   [.lit ("oy").data, .optDot, .lit ("j").data, .optDot],
   [.lit ("ab").data],
   [.lit ("gmbh").data],
   [.lit ("kgaa").data],
   [.lit ("kg").data],
   [.lit ("s").data, .optDot, .lit ("a").data, .optDot],
   [.lit ("sa").data],
   [.lit ("s").data, .optDot, .lit ("a").data, .optDot, .lit ("s").data, .optDot],
   [.lit ("sas").data],
   [.lit ("s").data, .optDot, .lit ("a").data, .optDot, .lit ("u").data, .optDot],
   [.lit ("s").data, .optDot, .lit ("l").data, .optDot, .optCh 'u', .optDot],
   [.lit ("s").data, .optDot, .lit ("p").data, .optDot, .lit ("a").data, .optDot],
   [.lit ("spa").data],
   [.lit ("bv").data],
   [.lit ("b").data, .optDot, .lit ("v").data, .optDot],
   [.lit ("bvba").data],
   [.lit ("asa").data],
   [.lit ("as").data],
   [.lit ("pte").data],
   [.lit ("pty").data],
   [.lit ("aps").data],
   [.lit ("a").data, .optCh '/', .lit ("s").data],
   [.lit ("k").data, .optDot, .lit ("k").data, .optDot],
   [.lit ("kk").data],
   [.lit ("kabushiki").data, .ws0, .lit ("kaisha").data],
   [.lit ("aktiengesellschaft").data],
   [.lit ("aktiebolag").data],
   [.lit ("aktiebolaget").data],
   [.lit ("publ").data],
   [.lit ("societa").data, .ws1, .lit ("per").data, .ws1, .lit ("azioni").data],
   [.lit ("società").data, .ws1, .lit ("per").data, .ws1, .lit ("azioni").data],
   [.lit ("societe").data, .ws1, .lit ("anonyme").data],
   [.lit ("société").data, .ws1, .lit ("anonyme").data]]

/-- `SUFFIX_RE` in full: each branch wrapped as `\b(branch)\b\.?`. -/
def suffixReAlts : List (List RePat) :=
  suffixReBranches.map (fun b => .bnd :: b ++ [.bnd, .optDot])

/-- `STOPWORDS = {"the"}`; `orgnorm.stem._strip_stopwords_from_tokens`. -/
def strip_stopwords_from_tokens (toks : List (List Char)) : List (List Char) :=
  toks.filter (fun t => t ≠ [] && t ≠ ("the").data)

/-- `orgnorm.stem.stem`: `norm`, remove corporate suffixes via `SUFFIX_RE`,
collapse whitespace, drop stopword tokens, re-join with single spaces. -/
def stem (U : UniModel) (s : List Char) : List Char :=
  let x := norm U s
  let x := reSubAll suffixReAlts [] x
  let x := stripWs (wsRunsToSpace x)
  joinSp (strip_stopwords_from_tokens (wordsCh x))

/-- `orgnorm.stem.cmp_stem`: `stem(strip_adr_suffix(s))`. -/
def cmp_stem (U : UniModel) (s : List Char) : List Char :=
  stem U (strip_adr_suffix U s)

/-! ## orgnorm/variants.py -/

/-- `_run_pipeline`: apply each transform over the growing list of strings. -/
def run_pipeline (seeds : List (List Char))
    (steps : List (List Char → List (List Char))) : List (List Char) :=
  steps.foldl (fun current step => current.flatMap step) seeds

/-- `_clean_base_for_variants`: strip, drop a trailing slash tag, drop the
depositary-receipt tail (same inline regex as `ADR_SUFFIX_RE`), strip. -/
def clean_base_for_variants (name : List Char) : List Char :=
  stripWs (adrSuffixSub (trailingSlashTagSub (stripWs name)))

/-- Does `s` match `re.match(r"^\s*the\s+\S", s, re.I)` (anchored at the
start)? -/
def leadingTheMatch (s : List Char) : Bool :=
  let r := s.dropWhile isWsC
  match dropCI ("the").data r with
  | some rest =>
    match rest with
    | c :: cs => isWsC c && (cs.dropWhile isWsC ≠ [])
    | [] => false
  | none => false

/-- `re.sub(r"^\s*the\s+", "", s, re.I)`: remove the leading whitespace,
`the` and the following whitespace run if that prefix is present. -/
def subLeadingThe (s : List Char) : List Char :=
  let r := s.dropWhile isWsC
  match dropCI ("the").data r with
  | some rest =>
    match rest with
    | c :: cs => if isWsC c then cs.dropWhile isWsC else s
    | [] => s
  | none => s

/-- `_maybe_the_variants`: emit both the `The`-prefixed and the bare form. -/
def maybe_the_variants (original : List Char) : List (List Char) :=
  let s := stripWs original
  if s = [] then []
  else
    let out :=
      if leadingTheMatch s then [s, stripWs (subLeadingThe s)]
      else [s, ("The ").data ++ s]
    dedupeL out

/-- The regex of `_co_ltd_to_company_limited` in `expand_query_variants`:
`\bco\b\.?\s*,?\s*ltd\b\.?` (case-insensitive). -/
def coLtdSeq : List RePat :=
  [.bnd, .lit ("co").data, .bnd, .optDot, .ws0, .optCh ',', .ws0,
   .lit ("ltd").data, .bnd, .optDot]

/-- `_co_ltd_to_company_limited`: return the original, plus the rewritten
form when the pattern fired. -/
def co_ltd_to_company_limited (s : List Char) : List (List Char) :=
  let v := reSubAll [coLtdSeq] ("Company Limited").data s
  if v = s then [s] else [s, v]

/-- Core of the SPA pattern `s\.?\s*p\.?\s*a\.?` (first alternation branch of
`spa_pat` without the trailing `(\.)?\b`). -/
def spaBranchCore : List RePat :=
  [.lit ("s").data, .optDot, .ws0, .lit ("p").data, .optDot, .ws0,
   .lit ("a").data, .optDot]

/-- `spa_pat = re.compile(r"(s\.?\s*p\.?\s*a\.?|spa)(\.)?\b", re.I)` as an
ordered alternation. -/
def spaPatAlts : List (List RePat) :=
  [spaBranchCore ++ [.optDot, .bnd],
   [.lit ("spa").data, .optDot, .bnd]]

/-- `spelled_pat = re.compile(r"societ[aà]\s+per\s+azioni", re.I)`. -/
def spelledPatSeq : List RePat :=
  [.lit ("societ").data, .chSet ['a', 'à'], .ws1, .lit ("per").data, .ws1,
   .lit ("azioni").data]

/-- Match the tail of `pat_letter_spa` at a position that already consumed
`&\s*` : `([A-Za-z])(\.?\s+)(s\.?\s*p\.?\s*a\.?|spa)(\.)?\b`, returning the
matched letter and the remaining input (with the last consumed character).
`pat_letter_spa = re.compile(r"(&\s*)([A-Za-z])(\.?\s+)(s\.?\s*p\.?\s*a\.?|spa)(\.)?\b", re.I)`. -/
def letterSpaTail (prev : Option Char) (l : List Char) :
    Option (Char × Option Char × List Char) :=
  match l with
  | c :: cs =>
    if c.isAlpha then
      let afterDot :=
        match cs with
        | '.' :: r => (some '.', r)
        | _ => (some c, cs)
      match afterDot with
      | (p1, rest1) =>
        match rest1 with
        | w :: ws =>
          if isWsC w then
            match wsSplitsGreedy (some w) ws with
            | st :: _ =>
              -- \s+ is greedy and the SPA group starts with a non-space, so
              -- the maximal split is the one Python takes.
              match matchAlts [spaBranchCore ++ [.optDot, .bnd],
                               [.lit ("spa").data, .optDot, .bnd]] st with
              | some (p2, rest2) => some (c, p2, rest2)
              | none => none
            | [] => none
          else none
        | [] => none
    else none
  | [] => none

/-- `pat_letter_spa.sub(lambda m: f"{m.group(1)}{m.group(2).upper()}. S.p.A.", s)`:
scan left to right; on a match of `&\s*LETTER\.?\s+SPA(\.)?\b`, emit
`&` + the whitespace + the uppercased letter + `. S.p.A.`. -/
def letterSpaSubAux : Nat → Option Char → List Char → List Char
  | 0, _, l => l
  | Nat.succ n, prev, l =>
    match l with
    | [] => []
    | '&' :: cs =>
      let ws := cs.takeWhile isWsC
      let rest := cs.dropWhile isWsC
      let prevWs := if ws = [] then some '&' else ws.getLast?
      match letterSpaTail prevWs rest with
      | some (letter, p2, rest2) =>
        if rest2.length < cs.length then
          '&' :: ws ++ [letter.toUpper] ++ (". S.p.A.").data ++
            letterSpaSubAux n p2 rest2
        else '&' :: letterSpaSubAux n (some '&') cs
      | none => '&' :: letterSpaSubAux n (some '&') cs
    | c :: cs => c :: letterSpaSubAux n (some c) cs

/-- `pat_letter_spa.sub(...)` over the whole string. -/
def letterSpaSub (l : List Char) : List Char := letterSpaSubAux (l.length + 1) none l

/-- `pat_letter_spa.search(s)` as a Boolean. -/
def letterSpaSearchAux : Nat → Option Char → List Char → Bool
  | 0, _, _ => false
  | Nat.succ n, prev, l =>
    match l with
    | [] => false
    | '&' :: cs =>
      let ws := cs.takeWhile isWsC
      let rest := cs.dropWhile isWsC
      let prevWs := if ws = [] then some '&' else ws.getLast?
      (letterSpaTail prevWs rest).isSome || letterSpaSearchAux n (some '&') cs
    | c :: cs => letterSpaSearchAux n (some c) cs

/-- `pat_letter_spa.search(s)`. -/
def letterSpaSearch (l : List Char) : Bool := letterSpaSearchAux (l.length + 1) none l

/-- `_canonical_italian_spa`. -/
def canonical_italian_spa (s : List Char) : List (List Char) :=
  let out := [s]
  let out :=
    if reSearch spaPatAlts s || reSearch [spelledPatSeq] s then
      out ++ [reSubAll spaPatAlts ("S.p.A.").data s,
              reSubAll spaPatAlts ("Società per Azioni").data s]
    else out
  let out :=
    if reSearch [spelledPatSeq] s then
      out ++ [reSubAll [spelledPatSeq] ("S.p.A.").data s]
    else out
  let out := if letterSpaSearch s then out ++ [letterSpaSub s] else out
  dedupeL out

/-- `SUFFIX_TO_FULL` from `orgnorm/constants.py`, in source order. -/
def SUFFIX_TO_FULL : List (String × String) :=
  [("ag", "Aktiengesellschaft"),
   ("ab", "Aktiebolag"),
   ("nv", "Naamloze Vennootschap"),
   ("s.p.a.", "Società per Azioni"),
   ("spa", "Società per Azioni"),
   ("sa", "Société Anonyme"),
   ("ltd", "Limited"),
   ("plc", "Public Limited Company"),
   ("co", "Company"),
   ("inc", "Incorporated"),
   ("llc", "Limited Liability Company"),
   ("gmbh", "Gesellschaft mit beschränkter Haftung"),
   ("kgaa", "Kommanditgesellschaft auf Aktien"),
   ("kg", "Kommanditgesellschaft"),
   ("oy", "Osakeyhtiö"),
   ("corp", "Corporation")]

/-- `re.fullmatch(r"s\.?\s*p\.?\s*a\.?|spa", last, re.I)` as a Boolean. -/
def spaFullmatch (tok : List Char) : Bool :=
  (matchSeq spaBranchCore (none, tok) ++
   matchSeq [.lit ("spa").data] (none, tok)).any (fun st => st.2 = [])

/-- Python `tok.rstrip(".")`. -/
def rstripDots (tok : List Char) : List Char :=
  (tok.reverse.dropWhile (fun c => c = '.')).reverse

/-- `_suffix_full_form_variant`: if the final token is a short legal suffix,
append a variant with the spelled-out form. -/
def suffix_full_form_variant (s : List Char) : List (List Char) :=
  let out := [s]
  let toks := wordsCh (stripWs s)
  match toks.getLast? with
  | none => out
  | some lastTok =>
    let last := rstripDots lastTok
    let mapKey : String :=
      if spaFullmatch last then "s.p.a." else String.mk (lowerChars last)
    match (SUFFIX_TO_FULL.lookup mapKey) with
    | some full =>
      dedupeL (out ++ [joinSp (toks.dropLast ++ [full.data])])
    | none => out

/-- `re.sub(r"[^a-z]", "", tok.lower())`: lowercase and keep only `a`–`z`. -/
def lastKeyOf (tok : List Char) : List Char :=
  (lowerChars tok).filter (fun c => 'a' ≤ c && c ≤ 'z')

/-- `_swedish_ab_prefix_variants`. -/
def swedish_ab_prefix_variants (s : List Char) : List (List Char) :=
  let out := [s]
  let toks := wordsCh (stripWs s)
  match toks.getLast? with
  | none => out
  | some lastTok =>
    let lk := String.mk (lastKeyOf lastTok)
    if lk = "ab" || lk = "a" || lk = "aktiebolag" || lk = "aktiebolaget" then
      let base := stripWs (joinSp toks.dropLast)
      if base ≠ [] then
        dedupeL (out ++ [("AB ").data ++ base, ("Aktiebolaget ").data ++ base])
      else out
    else out

/-- The `SINGLE` set of `_drop_trailing_single_token_suffix`. -/
def SINGLE_DROP : List String :=
  ["ab", "aktiebolag", "aktiebolaget", "ag", "nv", "bv", "sa", "spa", "oy",
   "oyj", "gmbh", "kk", "as", "asa", "se", "llc", "plc", "inc", "ltd",
   "kgaa", "kg", "sas", "srl", "aps", "pte", "pty"]

/-- `_drop_trailing_single_token_suffix`. -/
def drop_trailing_single_token_suffix (s : List Char) : List (List Char) :=
  let out := [s]
  let toks := wordsCh (stripWs s)
  match toks.getLast? with
  | none => out
  | some lastTok =>
    let lk := String.mk (lastKeyOf lastTok)
    if lk ∈ SINGLE_DROP && toks.length ≥ 2 then
      let base := stripWs (joinSp toks.dropLast)
      if base ≠ [] then dedupeL (out ++ [base]) else out
    else out

/-- Does the suffix match `\.{2,}\s*` up to the end of the string? -/
def dotsWsSuffix (l : List Char) : Bool :=
  let d := l.takeWhile (fun c => c = '.')
  d.length ≥ 2 && (l.drop d.length).all isWsC

/-- `re.sub(r"\.{2,}\s*$", ".", x)`: collapse a trailing run of two or more
periods (and trailing whitespace) into a single period. -/
def dotsTailSub : List Char → List Char
  | [] => []
  | c :: cs => if dotsWsSuffix (c :: cs) then ['.'] else c :: dotsTailSub cs

/-- `_sanitize_query_value`: trim, collapse whitespace runs, collapse a
trailing multi-dot run, trim again. -/
def sanitize_query_value (s : List Char) : List Char :=
  let x := stripWs s
  if x = [] then []
  else stripWs (dotsTailSub (wsRunsToSpace x))

/-- `DOTTING_MAP` from `orgnorm/constants.py`, in source (insertion) order. -/
def DOTTING_MAP : List (String × String) :=
  [("INC", "Inc."), ("CORP", "Corp."), ("CO", "Co."), ("PLC", "P.L.C."),
   ("BV", "B.V."), ("NV", "N.V."), ("SA", "S.A."), ("SAS", "S.A.S."),
   ("SAU", "S.A.U."), ("SL", "S.L."), ("SLU", "S.L.U."), ("SRL", "S.r.l."),
   ("SRO", "S.r.o."), ("OY", "O.Y."), ("OYJ", "O.Y.J."), ("AS", "A.S."),
   ("ASA", "A.S.A."), ("SE", "S.E."), ("KK", "K.K."), ("GMBH", "G.m.b.H.")]

/-- `re.sub(r"\.{2,}", ".", v)`: collapse every run of two or more periods to
a single one. -/
def multiDotCollapseAux : Bool → List Char → List Char
  | _, [] => []
  | inRun, c :: cs =>
    if c = '.' then
      (if inRun then multiDotCollapseAux true cs else
        match cs with
        | '.' :: _ => '.' :: multiDotCollapseAux true cs
        | _ => '.' :: multiDotCollapseAux false cs)
    else c :: multiDotCollapseAux false cs

/-- `re.sub(r"\.{2,}", ".", v)`. -/
def multiDotCollapse (l : List Char) : List Char := multiDotCollapseAux false l

/-- The pattern of `_emit_both_dotted_and_undotted`:
`\b<token>\b|\b<dotted with every \. made \.?>\b` (case-insensitive). -/
def emitPatAlts (token dotted : String) : List (List RePat) :=
  [[.bnd, .lit token.data, .bnd],
   [.bnd] ++ dotted.data.map (fun c => if c = '.' then RePat.optDot else .lit [c])
     ++ [.bnd]]

/-- `_emit_both_dotted_and_undotted`, including the final de-duplication over
`re.sub(r"\.{2,}", ".", v)` images. -/
def emit_both_dotted_and_undotted (seed : List Char) (token dotted : String) :
    List (List Char) :=
  let pat := emitPatAlts token dotted
  let out :=
    if reSearch pat seed then
      [seed, reSubAll pat token.data seed, reSubAll pat dotted.data seed]
    else [seed]
  dedupeL (out.map multiDotCollapse)

/-- `_ensure_dotted_abbrev_variants`. -/
def ensure_dotted_abbrev_variants (s : List Char) : List (List Char) :=
  let out := s :: DOTTING_MAP.flatMap
    (fun p => emit_both_dotted_and_undotted s p.1 p.2)
  dedupeL out

/-- The final `push` loop of `expand_query_variants`: sanitize each value and
append it when nonempty and not yet seen. -/
def pushQueryLoop : List (List Char) → List (List Char) → List (List Char)
  | acc, [] => acc
  | acc, v :: vs =>
    let cv := sanitize_query_value v
    if cv ≠ [] && cv ∉ acc then pushQueryLoop (acc ++ [cv]) vs
    else pushQueryLoop acc vs

/-- `orgnorm.variants.expand_query_variants`: clean the base, make `The`
variants, run the six transform steps, then sanitize and de-duplicate with
the original input first. -/
def expand_query_variants (name : List Char) : List (List Char) :=
  let base := clean_base_for_variants name
  let seeds := if base = [] then [] else maybe_the_variants base
  let variants := run_pipeline seeds
    [co_ltd_to_company_limited,
     canonical_italian_spa,
     suffix_full_form_variant,
     ensure_dotted_abbrev_variants,
     swedish_ab_prefix_variants,
     drop_trailing_single_token_suffix]
  pushQueryLoop [] (stripWs name :: variants)

/-! ## idmap/variants.py -/

/-- `Bucket` (a `Literal` string type in `idmap/types.py`). -/
inductive Bucket where
  | orig | gleif_legal | gleif_other | gleif_sub
  | expand_orig | expand_legal | expand_other | expand_sub
deriving DecidableEq, Repr

/-- `kind ∈ {"seed", "expand"}` from `VariantItem`. -/
inductive VKind where
  | seed | expand
deriving DecidableEq, Repr

/-- `idmap.types.VariantItem`. -/
structure VariantItem where
  name : String
  bucket : Bucket
  kind : VKind
deriving DecidableEq, Repr

/-- `idmap.variants._squash_ws`: `" ".join(str(s or "").split()).strip()`. -/
def squash_ws (s : String) : String := String.mk (stripWs (joinWords s.data))

/-- `_DESIGNATOR_TOKENS` from `idmap/variants.py` (kept verbatim, including
the multi-word entries, which a single whitespace-separated token can never
equal). -/
def DESIGNATOR_TOKENS : List String :=
  ["inc", "incorporated", "corp", "corporation", "co", "company", "ltd",
   "limited", "plc", "llc", "lp", "llp", "l.p.", "l.l.p", "lllp", "gmbh",
   "ag", "kg", "kgaa", "mbh",
   "sa", "s.a.", "sociedad anonima", "sas", "sasl", "sasu", "sarl",
   "s.a.r.l", "spa", "s.p.a.", "sapa", "s.a.p.a",
   "srl", "s.r.l", "sl", "s.l.", "slu", "s.l.u.", "lda", "l.da", "ltda",
   "limitada",
   "nv", "bv", "bvba", "cv", "cvba", "se", "verein", "ag & co", "ag&co",
   "oy", "oyj", "ab", "as", "asa", "a/s",
   "kk", "kabushiki kaisha", "kabushiki-gaisha", "godo kaisha", "g.k.",
   "sdn bhd", "pte ltd", "private limited",
   "co ltd", "co., ltd.", "pte. ltd.", "pteltd", "co.,ltd.",
   "pty ltd", "proprietary limited", "pty. ltd.", "ptyltd", "zrt", "rt",
   "oao", "zao", "ooo", "ao", "pa"]

/-- The characters stripped by `_normalize_token`'s
`tok.strip(" ,\"'()[]\x7b\x7d")`. -/
def tokenStripSet : List Char :=
  [' ', ',', '"', '\'', '(', ')', '[', ']', '\x7b', '\x7d']

/-- Python `str.strip(chars)`: drop the given characters from both ends. -/
def stripChars (set_ : List Char) (l : List Char) : List Char :=
  ((l.dropWhile (· ∈ set_)).reverse.dropWhile (· ∈ set_)).reverse

/-- `idmap.variants._normalize_token`: strip outer punctuation, lowercase,
remove every internal dot. -/
def normalize_token (tok : List Char) : List Char :=
  (lowerChars (stripChars tokenStripSet tok)).filter (fun c => c ≠ '.')

/-- `idmap.variants._has_designator`. -/
def has_designator (name : String) : Bool :=
  (wordsCh name.data).any
    (fun t => String.mk (normalize_token t) ∈ DESIGNATOR_TOKENS)

/-- The planner state: the ordered output and the `seen` set. -/
structure PlanState where
  out : List VariantItem
  seen : List String
deriving Repr

/-- The local `push` of `build_bucketed_variants`: whitespace-squash, skip
empty or seen names, else record. -/
def pushVariant (name : String) (bucket : Bucket) (kind : VKind)
    (st : PlanState) : PlanState :=
  let nv := squash_ws name
  if nv = "" || nv ∈ st.seen then st
  else { out := st.out ++ [⟨nv, bucket, kind⟩], seen := st.seen ++ [nv] }

/-- `idmap.variants._add_uc_variant` (note: the uppercase variant is always
recorded with `kind="seed"`, exactly as in the source). -/
def add_uc_variant (name : String) (bucket : Bucket) (st : PlanState) :
    PlanState :=
  let uc := squash_ws (String.mk (upperChars name.data))
  if uc = "" then st
  else if uc ∈ st.seen then st
  else if uc = squash_ws name then { st with seen := st.seen ++ [uc] }
  else { out := st.out ++ [⟨uc, bucket, .seed⟩], seen := st.seen ++ [uc] }

/-- The body of `expand_many` in `build_bucketed_variants`: for each
expansion of the seed, keep it only when nonempty, distinct from the seed
after squashing, and containing a designator token; then push it (kind
`expand`) and its uppercase form (via `_add_uc_variant`). The `try/except`
around `expand_query_variants` never fires in this total model. -/
def expand_many (seed : String) (bucket : Bucket) (st : PlanState) : PlanState :=
  ((expand_query_variants seed.data).map String.mk).foldl
    (fun st v =>
      if v = "" then st
      else if squash_ws v = squash_ws seed then st
      else if ¬ has_designator v then st
      else add_uc_variant v bucket (pushVariant v bucket .expand st))
    st

/-- One guarded seed entry of `build_bucketed_variants` (the Python
`if name: push(name, bucket, "seed"); _add_uc_variant(name, bucket, ...)`
pattern). -/
def planSeedPhase (name : String) (bucket : Bucket) (st : PlanState) : PlanState :=
  if name ≠ "" then add_uc_variant name bucket (pushVariant name bucket .seed st)
  else st

/-- One guarded expansion entry of `build_bucketed_variants` (the Python
`if name: expand_many(_squash_ws(name), bucket)` pattern). -/
def planExpandPhase (name : String) (bucket : Bucket) (st : PlanState) : PlanState :=
  if name ≠ "" then expand_many (squash_ws name) bucket st
  else st

/-- `idmap.variants.build_bucketed_variants` before the `max_variants`
truncation: seeds in order orig → gleif_legal → gleif_other → gleif_sub,
then (when enabled) expansions in order expand_legal → expand_other →
expand_orig → expand_sub, exactly as the source's statement order. -/
def buildPlanState (base_name : String) (gleif_legal : String)
    (gleif_other_names : List String) (subsidiaries : List String)
    (include_expansions : Bool) : PlanState :=
  let st := planSeedPhase base_name .orig ⟨[], []⟩
  let st := planSeedPhase gleif_legal .gleif_legal st
  let st := gleif_other_names.foldl (fun st nm => planSeedPhase nm .gleif_other st) st
  let st := subsidiaries.foldl (fun st sub => planSeedPhase sub .gleif_sub st) st
  if include_expansions then
    let st := planExpandPhase gleif_legal .expand_legal st
    let st := gleif_other_names.foldl (fun st nm => planExpandPhase nm .expand_other st) st
    let st := planExpandPhase base_name .expand_orig st
    subsidiaries.foldl (fun st sub => planExpandPhase sub .expand_sub st) st
  else st

/-- `idmap.variants.build_bucketed_variants`. -/
def build_bucketed_variants (base_name : String) (gleif_legal : String)
    (gleif_other_names : List String) (subsidiaries : List String)
    (include_expansions : Bool) (max_variants : Int) : List VariantItem :=
  let st := buildPlanState base_name gleif_legal gleif_other_names
    subsidiaries include_expansions
  if 0 < max_variants then st.out.take max_variants.toNat else st.out

/-! ## idmap/cache.py -/

/-- `idmap.cache.CacheKey`. -/
structure CacheKey where
  provider : String
  year : Int
  op : String
  key : String
deriving DecidableEq, Repr

/-- Insert or replace a binding in the in-memory map (Python dict
assignment `self._mem[key_tuple] = val`). -/
def insertKV {V : Type} : List (CacheKey × V) → CacheKey → V → List (CacheKey × V)
  | [], k, v => [(k, v)]
  | (k', v') :: rest, k, v =>
    if k' = k then (k, v) :: rest else (k', v') :: insertKV rest k v

/-- First-match lookup (Python `dict.get`). -/
def lookupKV {V : Type} : List (CacheKey × V) → CacheKey → Option V
  | [], _ => none
  | (k', v') :: rest, k => if k' = k then some v' else lookupKV rest k

/-- `idmap.cache.NamePlanCache`, parametric in the stored value type.
`log` is the on-disk line sequence; a `none` line is one whose JSON parse
fails (`_load` skips it silently). -/
structure NamePlanCache (V : Type) where
  mem : List (CacheKey × V)
  log : List (Option (CacheKey × V))
  loaded : Bool

/-- Replay the log into the in-memory map, as `_load` does line by line. -/
def replayLog {V : Type} (mem : List (CacheKey × V))
    (log : List (Option (CacheKey × V))) : List (CacheKey × V) :=
  log.foldl (fun m r => match r with
    | some (k, v) => insertKV m k v
    | none => m) mem

/-- `NamePlanCache._load`: a no-op when already loaded, otherwise replay the
on-disk log into the map. -/
def cacheLoad {V : Type} (c : NamePlanCache V) : NamePlanCache V :=
  if c.loaded then c
  else { mem := replayLog c.mem c.log, log := c.log, loaded := true }

/-- `NamePlanCache.get`: load, then read the in-memory map. The updated
cache (the lazy load is a mutation) is returned alongside. -/
def cacheGet {V : Type} (c : NamePlanCache V) (k : CacheKey) :
    Option V × NamePlanCache V :=
  let c := cacheLoad c
  (lookupKV c.mem k, c)

/-- `NamePlanCache.put` when the disk append succeeds: load, update the
in-memory map (line 71 of cache.py), then append the record to the log
(lines 79–82). -/
def cachePut {V : Type} (c : NamePlanCache V) (k : CacheKey) (v : V) :
    NamePlanCache V :=
  let c := cacheLoad c
  { mem := insertKV c.mem k v, log := c.log ++ [some (k, v)], loaded := true }

/-- `NamePlanCache.put` when the disk append raises: the in-memory update
(line 71) has already happened when the `open`/`write` on lines 79–82 fails,
so the observable state has the new map but the unchanged log. -/
def cachePutDiskFail {V : Type} (c : NamePlanCache V) (k : CacheKey) (v : V) :
    NamePlanCache V :=
  let c := cacheLoad c
  { mem := insertKV c.mem k v, log := c.log, loaded := true }

/-- A fresh cache on the same path: empty map, not yet loaded, the same
on-disk log. -/
def freshCacheOn {V : Type} (log : List (Option (CacheKey × V))) :
    NamePlanCache V :=
  { mem := [], log := log, loaded := false }

/-- The cache value as used by `idmap/iterator.py`: the callers only ever
store the single field `has_hits` (via `mark_has_hits`), so the value dict
is `{"has_hits": bool}`. -/
structure CVal where
  has_hits : Bool
deriving DecidableEq, Repr

/-- `NamePlanCache.has_hits`: `get`, defaulting to `False` when absent
(`cached.get("has_hits", False)`). -/
def cacheHasHits (c : NamePlanCache CVal) (k : CacheKey) :
    Bool × NamePlanCache CVal :=
  match cacheGet c k with
  | (none, c) => (false, c)
  | (some v, c) => (v.has_hits, c)

/-- `NamePlanCache.mark_has_hits`: merge the flag into the existing (or
empty) value, then `put`. With `CVal` values the merge is just the flag. -/
def cacheMarkHasHits (c : NamePlanCache CVal) (k : CacheKey) (b : Bool) :
    NamePlanCache CVal :=
  let c := cacheLoad c
  cachePut c k ⟨b⟩

/-! ## idmap/iterator.py -/

/-- `_Cache._year`: `int(y) if y is not None else 0`. -/
def yearInt (y : Option Int) : Int := y.getD 0

/-- The cache key built by `_Cache.get_eq`/`put_eq`. -/
def eqCacheKey (label : String) (year : Option Int) (name : String) : CacheKey :=
  ⟨label, yearInt year, "eq", name⟩

/-- The cache key built by `_Cache.get_discovery`/`put_discovery`. -/
def discCacheKey (label : String) (year : Option Int) (seed : String) : CacheKey :=
  ⟨label, yearInt year, "discover", seed⟩

/-- `_Cache.get_eq`: a recorded `has_hits=True` answers with the placeholder
count 1; otherwise (absent **or** recorded `has_hits=False`) `None`. -/
def cacheGetEq (label : String) (year : Option Int) (c : NamePlanCache CVal)
    (name : String) : Option Int × NamePlanCache CVal :=
  match cacheHasHits c (eqCacheKey label year name) with
  | (true, c) => (some 1, c)
  | (false, c) => (none, c)

/-- `_Cache.put_eq`: record `has_hits := count > 0`. -/
def cachePutEq (label : String) (year : Option Int) (c : NamePlanCache CVal)
    (name : String) (count : Int) : NamePlanCache CVal :=
  cacheMarkHasHits c (eqCacheKey label year name) (decide (0 < count))

/-- `_Cache.get_discovery`: a recorded `has_hits=True` answers with the
placeholder list `["cached_hit"]`; otherwise `None`. -/
def cacheGetDiscovery (label : String) (year : Option Int)
    (c : NamePlanCache CVal) (seed : String) :
    Option (List String) × NamePlanCache CVal :=
  match cacheHasHits c (discCacheKey label year seed) with
  | (true, c) => (some ["cached_hit"], c)
  | (false, c) => (none, c)

/-- `_Cache.put_discovery`: record `has_hits := len(found) > 0`. -/
def cachePutDiscovery (label : String) (year : Option Int)
    (c : NamePlanCache CVal) (seed : String) (found : List String) :
    NamePlanCache CVal :=
  cacheMarkHasHits c (discCacheKey label year seed) (decide (0 < found.length))

/-- The provider protocol `NameProvider` of `idmap/iterator.py`, as pure
functions: `count_eq(company, year)` and
`discover_prefix(prefix, year, limit)` (field `discover_begins` here). -/
structure NameProvider where
  count_eq : String → Option Int → Int
  discover_begins : String → Option Int → Nat → List String

/-- `NameEvent = EqAttemptResult | DiscoveryResult` (the always-empty `meta`
dict is omitted). -/
inductive NameEvent where
  | eqAttempt (base_query : String) (year : Option Int) (variant : String)
      (bucket : String) (total : Int)
  | discovery (base_query : String) (year : Option Int) (seed : String)
      (bucket : String) (harvested : List String)
deriving DecidableEq, Repr

/-- The state threaded through a resolution: the cache, the yielded events,
and the trace of provider calls actually made (arguments of `count_eq` and
of `discover_prefix`, in order). -/
structure IterState where
  cache : NamePlanCache CVal
  events : List NameEvent
  eq_calls : List String
  disc_calls : List String

/-- One exact-count probe of `_resolve_eq_then_discovery`: consult the
cache; on a miss call the provider and record the outcome; yield an
`EqAttemptResult`. -/
def eqProbe (P : NameProvider) (label : String) (year : Option Int)
    (base_query : String) (bucket : String) (variant : String)
    (st : IterState) : IterState :=
  match cacheGetEq label year st.cache variant with
  | (none, c) =>
    let total := P.count_eq variant year
    let c := cachePutEq label year c variant total
    { cache := c
      events := st.events ++ [.eqAttempt base_query year variant bucket total]
      eq_calls := st.eq_calls ++ [variant]
      disc_calls := st.disc_calls }
  | (some total, c) =>
    { st with
      cache := c
      events := st.events ++ [.eqAttempt base_query year variant bucket total] }

/-- `SEED_BUCKETS` from `idmap/iterator.py` (plain strings there). -/
def SEED_BUCKETS : List String := ["orig", "gleif_legal", "gleif_other", "gleif_sub"]

/-- The Stage-B bucket list of `_resolve_eq_then_discovery` (subsidiaries
excluded). -/
def DISCOVERY_BUCKETS_A : List String :=
  ["orig", "gleif_legal", "gleif_other", "expand_legal", "expand_other",
   "expand_orig"]

/-- Stage A of `_resolve_eq_then_discovery`: exact-count probes on seed
buckets, in bucket order, in candidate order. -/
def stageA (P : NameProvider) (label : String) (year : Option Int)
    (base_query : String) (candidates : List (String × String))
    (st : IterState) : IterState :=
  SEED_BUCKETS.foldl
    (fun st bucket =>
      candidates.foldl
        (fun st vb =>
          if vb.2 ≠ bucket then st
          else eqProbe P label year base_query vb.2 vb.1 st)
        st)
    st

/-- The per-seed body of Stage B: discovery (cached or live), a
`DiscoveryResult` event, then an exact-count probe on each distinct
harvested organization. -/
def discoverStep (P : NameProvider) (label : String) (year : Option Int)
    (base_query : String) (limit : Nat) (bucket : String) (seed : String)
    (st : IterState) : IterState :=
  let (harvested, st) :=
    match cacheGetDiscovery label year st.cache seed with
    | (none, c) =>
      let harvested := P.discover_begins seed year limit
      let c := cachePutDiscovery label year c seed harvested
      (harvested, { st with cache := c, disc_calls := st.disc_calls ++ [seed] })
    | (some harvested, c) => (harvested, { st with cache := c })
  let st := { st with
    events := st.events ++ [.discovery base_query year seed bucket harvested] }
  (harvested.foldl
    (fun (p : List String × IterState) org =>
      let (seen, st) := p
      if org ∈ seen then (seen, st)
      else (seen ++ [org], eqProbe P label year base_query bucket org st))
    ([], st)).2

/-- Stage B of `_resolve_eq_then_discovery`: discovery (plus eq on each
harvested name) over the discovery buckets, in bucket order, in candidate
order. -/
def stageB (P : NameProvider) (label : String) (year : Option Int)
    (base_query : String) (candidates : List (String × String)) (limit : Nat)
    (st : IterState) : IterState :=
  DISCOVERY_BUCKETS_A.foldl
    (fun st bucket =>
      (candidates.filterMap (fun vb => if vb.2 = bucket then some vb.1 else none)).foldl
        (fun st seed => discoverStep P label year base_query limit bucket seed st)
        st)
    st

/-- `NameResolver._resolve_eq_then_discovery` (the default strategy), run to
completion from a given starting cache, with the provider-call trace. -/
def resolve_eq_then_discovery (P : NameProvider) (label : String)
    (year : Option Int) (base_query : String)
    (candidates : List (String × String)) (limit : Nat)
    (cache0 : NamePlanCache CVal) : IterState :=
  stageB P label year base_query candidates limit
    (stageA P label year base_query candidates
      ⟨cache0, [], [], []⟩)

/-! ## idmap/discovery.py -/

/-- `discovery._norm_words`: lowercase alphanumerics, collapse every
non-alphanumeric run to a single space, then `" ".join(·.split()).strip()`. -/
def normWordsAux : Bool → List Char → List Char
  | _, [] => []
  | prevSpace, c :: cs =>
    if c.isAlphanum then c.toLower :: normWordsAux false cs
    else if prevSpace then normWordsAux true cs
    else ' ' :: normWordsAux true cs

/-- `discovery._norm_words`. -/
def norm_words (s : List Char) : List Char :=
  if s = [] then [] else stripWs (joinWords (normWordsAux false s))

/-- The boundary guard of `discover_orgs_via_begins`, applied to one
(stripped) organization string: keep it iff the raw (stripped) prefix is a
string-prefix of it, or its word-normalized form starts with the
word-normalized prefix at a token boundary. -/
def boundaryGuard (pfx : List Char) (org_raw : List Char) : Bool :=
  let want_raw := stripWs pfx
  let want_words := norm_words pfx
  let raw_ok := want_raw ≠ [] && want_raw.isPrefixOf org_raw
  let ow := norm_words org_raw
  let boundary_ok :=
    if want_words ≠ [] then
      want_words.isPrefixOf ow &&
        (ow.length = want_words.length || ow.get? want_words.length = some ' ')
    else false
  raw_ok || boundary_ok

/-- One assignee of the harvesting loop in `discover_orgs_via_begins`:
skip a missing/non-string or empty organization, strip it, apply the
boundary guard, and de-duplicate via the `seen` set (the state is the pair
`(out, seen)`). -/
def harvestStep (pfx : List Char) (p : List (List Char) × List (List Char))
    (orgField : Option (List Char)) : List (List Char) × List (List Char) :=
  let (out, seen) := p
  match orgField with
  | none => (out, seen)
  | some org =>
    if org = [] then (out, seen)
    else
      let org_raw := stripWs org
      if boundaryGuard pfx org_raw then
        if org_raw ∈ seen then (out, seen)
        else (out ++ [org_raw], seen ++ [org_raw])
      else (out, seen)

/-- The harvesting filter of `discover_orgs_via_begins`: the response is a
list of patents, each with a list of assignees whose
`assignee_organization` field is an optional string (`none` models a missing
or non-string field). Organizations are stripped, filtered by the guard and
de-duplicated preserving first occurrence. -/
def discover_orgs_filter (pfx : List Char)
    (patents : List (List (Option (List Char)))) : List (List Char) :=
  (patents.foldl
    (fun (p : List (List Char) × List (List Char)) assignees =>
      assignees.foldl (harvestStep pfx) p)
    ([], [])).1

/-! ## gleif/match.py -/

/-- A GLEIF record row as consumed by `pick_top_matches`, after
`extract_names` (JSON parsing, out of scope here) has produced the LEI, the
legal name, the other names and the headquarters country. An absent LEI is
the empty string (falsy in the source's `if rule and lei`). -/
structure GleifRow where
  lei : String
  legal : String
  others : List String
  hq_country : String
deriving DecidableEq, Repr

/-- The returned match dict `{"lei", "legal", "hq_country", "rule"}`. -/
structure MatchDict where
  lei : String
  legal : String
  hq_country : String
  rule : String
deriving DecidableEq, Repr

/-- `PRIORITY.get(rule, 0)` from `gleif/match.py`. -/
def rulePriority (rule : String) : Int :=
  if rule = "exact_norm_legal" then 4
  else if rule = "exact_norm_other" then 3
  else if rule = "stem_eq_legal" then 3
  else if rule = "token_set_eq_legal" then 2
  else if rule = "token_set_eq_other" then 1
  else 0

/-- `x.replace(".", "")` (the `undot` helper of `rule_for`). -/
def undot (x : List Char) : List Char := x.filter (fun c => c ≠ '.')

/-- Token set of `rule_for`'s `toks`: `set(SPACE_RE.split(cmp_stem(x)))`
without empties; set equality is mutual membership. -/
def stemToks (U : UniModel) (x : List Char) : List (List Char) :=
  (wordsCh (cmp_stem U x)).filter (fun t => t ≠ [])

/-- Python `set(a) == set(b)` on token lists. -/
def tokSetEq (a b : List (List Char)) : Bool :=
  a.all (· ∈ b) && b.all (· ∈ a)

/-- `gleif.match.rule_for`. -/
def rule_for (U : UniModel) (target_name legal : String)
    (other_names : List String) : String :=
  let tn := cmp_norm U target_name.data
  let ts := cmp_stem U target_name.data
  let l_n := cmp_norm U legal.data
  let l_s := cmp_stem U legal.data
  let tn_u := undot tn
  let l_n_u := undot l_n
  if (l_n = tn && l_n ≠ []) || (l_n_u = tn_u && l_n_u ≠ []) then
    "exact_norm_legal"
  else if other_names.any (fun on_ =>
      let on_n := cmp_norm U on_.data
      (on_n = tn && tn ≠ []) || (undot on_n = tn_u && tn_u ≠ [])) then
    "exact_norm_other"
  else if l_s = ts && ts ≠ [] then
    "stem_eq_legal"
  else
    let t0 := stemToks U target_name.data
    if t0 ≠ [] && tokSetEq (stemToks U legal.data) t0 then
      "token_set_eq_legal"
    else if other_names.any (fun on_ =>
        t0 ≠ [] && tokSetEq (stemToks U on_.data) t0) then
      "token_set_eq_other"
    else ""

/-- `names_for_checks = [legal] + others`. -/
def namesForChecks (r : GleifRow) : List String := r.legal :: r.others

/-- Does a row carry a depositary-receipt marker:
`any(is_adr_like_name((n or "").lower()) for n in names_for_checks if n)`. -/
def rowAdrLike (U : UniModel) (r : GleifRow) : Bool :=
  (namesForChecks r).any (fun n => n ≠ "" && is_adr_like_name (U.lower n.data))

/-- `any(name_has_ascii(n or "") for n in names_for_checks if n)`. -/
def rowHasAscii (r : GleifRow) : Bool :=
  (namesForChecks r).any (fun n => n ≠ "" && name_has_ascii n.data)

/-- The `raw_cands` list of `pick_top_matches`: for each row with a matching
rule and a nonempty LEI, the triple `(rule, dict, adr_like)`. -/
def rawCands (U : UniModel) (rows : List GleifRow) (target_name : String) :
    List (String × MatchDict × Bool) :=
  rows.filterMap (fun r =>
    let rule := rule_for U target_name r.legal r.others
    if rule ≠ "" && r.lei ≠ "" then
      some (rule, ⟨r.lei, r.legal, r.hq_country, rule⟩, rowAdrLike U r)
    else none)

/-- `gleif.match.pick_top_matches`: returns `(matches, status, top_rule)`. -/
def pick_top_matches (U : UniModel) (rows : List GleifRow)
    (target_name : String) : List MatchDict × String × String :=
  let had_candidates := rows ≠ []
  let any_adr := rows.any (rowAdrLike U)
  let any_ascii := rows.any rowHasAscii
  let raw_cands := rawCands U rows target_name
  let cands := raw_cands.filter (fun c => ¬ c.2.2)
  match cands with
  | [] =>
    if had_candidates && any_adr then ([], "adr_only_candidates", "")
    else if had_candidates && !any_ascii then ([], "non_latin_only", "")
    else ([], "no_match", "")
  | c0 :: rest =>
    let top_score := rest.foldl (fun m c => max m (rulePriority c.1))
      (rulePriority c0.1)
    let top := (c0 :: rest).filter (fun c => rulePriority c.1 = top_score)
    let top_d := top.map (fun c => c.2.1)
    match top_d with
    | [d] => ([d], "ok", d.rule)
    | d :: ds => (d :: ds, "ambiguous_multi", d.rule)
    | [] => ([], "no_match", "")

/-! ## Auxiliary definitions for the statements of the claims -/

/-- The bucket ordering the code actually uses: `ALL_BUCKETS` from
`idmap/iterator.py` and the docstring of `build_bucketed_variants`
(`seeds: orig → gleif_legal → gleif_other → gleif_sub`, then
`expansions: expand_legal → expand_other → expand_orig → expand_sub`). -/
def bucketPlanOrder : Bucket → Nat
  | .orig => 0
  | .gleif_legal => 1
  | .gleif_other => 2
  | .gleif_sub => 3
  | .expand_legal => 4
  | .expand_other => 5
  | .expand_orig => 6
  | .expand_sub => 7

/-- Is this one of the four expansion buckets? -/
def isExpandBucket : Bucket → Bool
  | .expand_orig | .expand_legal | .expand_other | .expand_sub => true
  | _ => false

/-- The canonical bucket order **as the specification lists it**
(`orig, gleif_legal, gleif_other, gleif_sub, expand_orig, expand_legal,
expand_other, expand_sub`); written from the spec's words for comparison
with the code's order. -/
def specCanonicalBucketIndex : Bucket → Nat
  | .orig => 0
  | .gleif_legal => 1
  | .gleif_other => 2
  | .gleif_sub => 3
  | .expand_orig => 4
  | .expand_legal => 5
  | .expand_other => 6
  | .expand_sub => 7

/-- First projection of `cacheHasHits` (the Boolean the callers branch on). -/
def hasHitsVal (c : NamePlanCache CVal) (k : CacheKey) : Bool :=
  (cacheHasHits c k).1

/-- A provider whose exact counts are all zero and whose discovery always
returns the single organization `"A"`; used to exercise the resolver. -/
def cexProvider : NameProvider :=
  { count_eq := fun _ _ => 0
    discover_begins := fun _ _ _ => ["A"] }

/-- A fresh, empty, not-yet-loaded cache. -/
def emptyNamePlanCache : NamePlanCache CVal := ⟨[], [], false⟩

/-- A cache whose in-memory map records `has_hits = true` for the eq key of
`"A"`, the discover key of `"A"`, and the eq key of the placeholder
`"cached_hit"` (provider label `"provider"`, no year); used as the fully
populated cache for a run on the single candidate `("A", "orig")`. -/
def populatedCache : NamePlanCache CVal :=
  { mem := [(eqCacheKey "provider" none "A", ⟨true⟩),
            (discCacheKey "provider" none "A", ⟨true⟩),
            (eqCacheKey "provider" none "cached_hit", ⟨true⟩)]
    log := []
    loaded := true }

/-- Proof infrastructure for the planner: one phase of
`build_bucketed_variants` relates states `st` and `st'` when it appends to
the output only items in bucket `b` with kinds from `ks`, whose (squashed)
names are fresh with respect to `st.seen`, pairwise distinct, and recorded
in `st'.seen`; `seen` only grows. -/
def SegAdds (b : Bucket) (ks : List VKind) (st st' : PlanState) : Prop :=
  ∃ new, st'.out = st.out ++ new ∧
    (∀ it ∈ new, it.bucket = b ∧ it.kind ∈ ks) ∧
    (∀ it ∈ new, it.name ∉ st.seen) ∧
    (new.map (fun it => it.name)).Nodup ∧
    (∀ x ∈ st.seen, x ∈ st'.seen) ∧
    (∀ it ∈ new, it.name ∈ st'.seen) ∧
    (∀ it ∈ new, squash_ws it.name = it.name)

/-- The running invariant of `build_bucketed_variants` after the phases of
bucket order up to `p`: output bucket-ordered (in the code's phase order)
and bounded by `p`, names pairwise distinct, recorded in `seen`,
whitespace-squashed, and `expand`-kind items only in expansion buckets. -/
def PlanInv (p : Nat) (st : PlanState) : Prop :=
  List.Pairwise (fun a b => bucketPlanOrder a.bucket ≤ bucketPlanOrder b.bucket)
    st.out ∧
  (∀ it ∈ st.out, bucketPlanOrder it.bucket ≤ p) ∧
  ((st.out.map fun it => it.name).Nodup) ∧
  (∀ it ∈ st.out, it.name ∈ st.seen) ∧
  (∀ it ∈ st.out, it.kind = .expand → isExpandBucket it.bucket = true) ∧
  (∀ it ∈ st.out, squash_ws it.name = it.name)

/-! ## Theorems

General helper lemmas first, then one theorem per claim (with witnesses and
counterexamples as needed). -/

/-- `foldl` preserves an invariant that every step preserves. -/
theorem foldl_inv {α β : Type} (P : β → Prop) (f : β → α → β) :
    ∀ (l : List α) (b : β), (∀ b a, a ∈ l → P b → P (f b a)) → P b →
      P (l.foldl f b)
  | [], b, _, hb => hb
  | a :: l, b, h, hb =>
    foldl_inv P f l (f b a) (fun b' a' ha' => h b' a' (List.mem_cons_of_mem a ha'))
      (h b a (List.mem_cons_self a l) hb)

/-- Every element appended by the `push` loop of `expand_query_variants` is
nonempty. -/
theorem pushQueryLoop_ne_nil :
    ∀ (vs acc : List (List Char)), (∀ a ∈ acc, a ≠ []) →
      ∀ x ∈ pushQueryLoop acc vs, x ≠ []
  | [], acc, h => h
  | v :: vs, acc, h => by
    intro x hx
    simp only [pushQueryLoop] at hx
    split at hx
    · next hc =>
      refine pushQueryLoop_ne_nil vs _ ?_ x hx
      intro a ha
      rcases List.mem_append.mp ha with ha | ha
      · exact h a ha
      · rcases List.mem_singleton.mp ha with rfl
        simp only [Bool.and_eq_true, decide_eq_true_eq] at hc
        exact hc.1
    · exact pushQueryLoop_ne_nil vs acc h x hx

/-- C10: `expand_query_variants` maps the empty string to the empty list
(not to a list containing the empty string), and for every input the
returned list never contains the empty string as an element. -/
theorem C10_expand_query_variants_no_empty :
    expand_query_variants [] = [] ∧
      ∀ name : List Char, [] ∉ expand_query_variants name := by
  constructor
  · rfl
  · intro name hmem
    exact pushQueryLoop_ne_nil _ [] (by intro a ha; cases ha)
      [] hmem rfl

/-- Loading does not change the on-disk log. -/
theorem cacheLoad_log {V : Type} (c : NamePlanCache V) :
    (cacheLoad c).log = c.log := by
  unfold cacheLoad
  split <;> rfl

/-- Loading is idempotent. -/
theorem cacheLoad_idem {V : Type} (c : NamePlanCache V) :
    cacheLoad (cacheLoad c) = cacheLoad c := by
  unfold cacheLoad
  split
  · next h => simp [h]
  · rfl

/-- Looking up a freshly inserted key returns the inserted value. -/
theorem lookupKV_insertKV {V : Type} :
    ∀ (m : List (CacheKey × V)) (k : CacheKey) (v : V),
      lookupKV (insertKV m k v) k = some v
  | [], k, v => by simp [insertKV, lookupKV]
  | (k', v') :: rest, k, v => by
    by_cases h : k' = k
    · simp [insertKV, h, lookupKV]
    · simp [insertKV, h, lookupKV, lookupKV_insertKV rest k v]

/-- Replaying a log splits over append. -/
theorem replayLog_append {V : Type} (m : List (CacheKey × V))
    (l1 l2 : List (Option (CacheKey × V))) :
    replayLog m (l1 ++ l2) = replayLog (replayLog m l1) l2 :=
  List.foldl_append _ _ l1 l2

/-- C3: after a successful `put(k, v)`, a fresh cache constructed on the
same path replays the on-disk log and `get(k)` returns `v`: the record
appended last for `k` wins over every earlier record for `k`. -/
theorem C3_put_reload_roundtrip {V : Type} (c : NamePlanCache V)
    (k : CacheKey) (v : V) :
    (cacheGet (freshCacheOn (cachePut c k v).log) k).1 = some v := by
  show lookupKV (cacheLoad (freshCacheOn (cachePut c k v).log)).mem k = some v
  have hlog : (cachePut c k v).log = (cacheLoad c).log ++ [some (k, v)] := rfl
  simp only [freshCacheOn, cacheLoad, hlog]
  simp only [replayLog_append]
  simp [replayLog, lookupKV_insertKV]

/-- C2 counterexample: with a cache whose in-memory map holds
`has_hits = true` for a key, a `put` of `has_hits = false` whose disk append
fails leaves the **new** value visible through `get` (the in-memory map was
updated before the append), and the on-disk log unchanged — the claim says
`get` should still return the previous value. -/
theorem C2_put_counterexample :
    (cacheGet (cachePutDiskFail
        (⟨[(eqCacheKey "provider" none "A", ⟨true⟩)], [], true⟩ : NamePlanCache CVal)
        (eqCacheKey "provider" none "A") ⟨false⟩)
      (eqCacheKey "provider" none "A")).1 = some ⟨false⟩ ∧
    (cachePutDiskFail
        (⟨[(eqCacheKey "provider" none "A", ⟨true⟩)], [], true⟩ : NamePlanCache CVal)
        (eqCacheKey "provider" none "A") ⟨false⟩).log = [] ∧
    (⟨false⟩ : CVal) ≠ ⟨true⟩ := by
  refine ⟨by decide, by decide, by decide⟩

/-- C2 amended: `put` updates the in-memory map **before** appending to the
on-disk log, so the new value is visible via `get` even when the disk append
fails (with the log unchanged); a successful `put` leaves the map updated
and exactly one record appended. -/
theorem C2_put_amended {V : Type} (c : NamePlanCache V) (k : CacheKey) (v : V) :
    (cacheGet (cachePutDiskFail c k v) k).1 = some v ∧
    (cachePutDiskFail c k v).log = c.log ∧
    (cacheGet (cachePut c k v) k).1 = some v ∧
    (cachePut c k v).log = c.log ++ [some (k, v)] := by
  refine ⟨?_, ?_, ?_, ?_⟩
  · show lookupKV (cacheLoad (cachePutDiskFail c k v)).mem k = some v
    simp [cachePutDiskFail, cacheLoad, lookupKV_insertKV]
  · show (cachePutDiskFail c k v).log = c.log
    simp [cachePutDiskFail, cacheLoad_log]
  · show lookupKV (cacheLoad (cachePut c k v)).mem k = some v
    simp [cachePut, cacheLoad, lookupKV_insertKV]
  · show (cachePut c k v).log = c.log ++ [some (k, v)]
    simp [cachePut, cacheLoad_log]

/-- The Boolean read by `has_hits` is unchanged by loading. -/
theorem hasHitsVal_load (c : NamePlanCache CVal) (k : CacheKey) :
    hasHitsVal (cacheLoad c) k = hasHitsVal c k := by
  unfold hasHitsVal cacheHasHits cacheGet
  rw [cacheLoad_idem]

/-- The cache returned by `has_hits` is the loaded cache. -/
theorem cacheHasHits_snd (c : NamePlanCache CVal) (k : CacheKey) :
    (cacheHasHits c k).2 = cacheLoad c := by
  rcases h : lookupKV (cacheLoad c).mem k with _ | v <;>
    simp [cacheHasHits, cacheGet, h]

/-- `has_hits` as a pair, when the Boolean is known. -/
theorem cacheHasHits_eq_pair (c : NamePlanCache CVal) (k : CacheKey)
    (h : hasHitsVal c k = true) :
    cacheHasHits c k = (true, cacheLoad c) := by
  have h2 := cacheHasHits_snd c k
  have h1 : (cacheHasHits c k).1 = true := h
  cases hp : cacheHasHits c k with
  | mk a b =>
    rw [hp] at h1 h2
    simp only [Prod.fst] at h1
    simp only [Prod.snd] at h2
    simp [h1, h2]

/-- An exact-count probe whose key is recorded with `has_hits = true` is
answered from the cache: no provider call, no new cache record, only the
lazy load happens. -/
theorem eqProbe_cached (P : NameProvider) (label : String) (year : Option Int)
    (bq bucket v : String) (st : IterState)
    (h : hasHitsVal st.cache (eqCacheKey label year v) = true) :
    (eqProbe P label year bq bucket v st).cache = cacheLoad st.cache ∧
    (eqProbe P label year bq bucket v st).eq_calls = st.eq_calls ∧
    (eqProbe P label year bq bucket v st).disc_calls = st.disc_calls := by
  have hpair := cacheHasHits_eq_pair st.cache (eqCacheKey label year v) h
  simp [eqProbe, cacheGetEq, hpair]

/-- A discovery probe whose key is recorded with `has_hits = true`, in a
cache that also records `has_hits = true` for the eq key of the placeholder
`"cached_hit"`, makes no provider call: the harvested list is the
placeholder and its single organization is eq-answered from the cache. -/
theorem discoverStep_cached (P : NameProvider) (label : String)
    (year : Option Int) (bq : String) (limit : Nat) (bucket seed : String)
    (st : IterState)
    (h1 : hasHitsVal st.cache (discCacheKey label year seed) = true)
    (h3 : hasHitsVal st.cache (eqCacheKey label year "cached_hit") = true) :
    (discoverStep P label year bq limit bucket seed st).cache = cacheLoad st.cache ∧
    (discoverStep P label year bq limit bucket seed st).eq_calls = st.eq_calls ∧
    (discoverStep P label year bq limit bucket seed st).disc_calls = st.disc_calls := by
  have hpair := cacheHasHits_eq_pair st.cache (discCacheKey label year seed) h1
  have h3' : hasHitsVal (cacheLoad st.cache) (eqCacheKey label year "cached_hit") = true := by
    rw [hasHitsVal_load]; exact h3
  have hpair3 := cacheHasHits_eq_pair (cacheLoad st.cache)
    (eqCacheKey label year "cached_hit") h3'
  simp [discoverStep, cacheGetDiscovery, hpair, eqProbe, cacheGetEq, hpair3,
    cacheLoad_idem]

/-- C1 counterexample: provider `cexProvider` returns exact count 0 for
every name and discovery harvest `["A"]`. Running the default strategy on
the single candidate `("A", "orig")` with an empty cache: Stage A probes
`"A"`, records its outcome (`has_hits = false`), and Stage B's harvested
`"A"` — a previously probed candidate with its outcome recorded — is **not**
answered from the cache: `count_eq` is called a second time (`eq_calls =
["A", "A"]`). -/
theorem C1_probe_counterexample :
    lookupKV (stageA cexProvider "provider" none "A" [("A", "orig")]
        ⟨emptyNamePlanCache, [], [], []⟩).cache.mem
      (eqCacheKey "provider" none "A") = some ⟨false⟩ ∧
    (resolve_eq_then_discovery cexProvider "provider" none "A" [("A", "orig")]
        120 emptyNamePlanCache).eq_calls = ["A", "A"] := by
  refine ⟨by decide, by decide⟩

/-- C1 amended: an exact-count (resp. discovery) probe is answered from the
cache exactly when its recorded outcome is `has_hits = true` (a recorded
miss is re-probed). Consequently, running the default
`eq_then_discovery` strategy over a cache that records `has_hits = true`
for the eq key of every seed-bucket candidate, the discover key of every
discovery-bucket candidate, and the eq key of the placeholder
`"cached_hit"` harvested on cached discoveries, makes zero provider calls. -/
theorem C1_fully_cached_zero_calls (P : NameProvider) (label : String)
    (year : Option Int) (bq : String) (candidates : List (String × String))
    (limit : Nat) (cache0 : NamePlanCache CVal)
    (h1 : ∀ vb ∈ candidates, vb.2 ∈ SEED_BUCKETS →
      hasHitsVal cache0 (eqCacheKey label year vb.1) = true)
    (h2 : ∀ vb ∈ candidates, vb.2 ∈ DISCOVERY_BUCKETS_A →
      hasHitsVal cache0 (discCacheKey label year vb.1) = true)
    (h3 : hasHitsVal cache0 (eqCacheKey label year "cached_hit") = true) :
    (resolve_eq_then_discovery P label year bq candidates limit cache0).eq_calls = [] ∧
    (resolve_eq_then_discovery P label year bq candidates limit cache0).disc_calls = [] := by
  set Inv : IterState → Prop := fun st =>
    (st.cache = cache0 ∨ st.cache = cacheLoad cache0) ∧
      st.eq_calls = [] ∧ st.disc_calls = [] with hInv
  have hHitsEq : ∀ st, Inv st → ∀ k, hasHitsVal st.cache k = hasHitsVal cache0 k := by
    intro st hst k
    rcases hst.1 with h | h <;> rw [h]
    exact hasHitsVal_load cache0 k
  have hLoadEq : ∀ st, Inv st → cacheLoad st.cache = cacheLoad cache0 := by
    intro st hst
    rcases hst.1 with h | h <;> rw [h]
    exact cacheLoad_idem cache0
  have hA : Inv (stageA P label year bq candidates ⟨cache0, [], [], []⟩) := by
    refine foldl_inv Inv _ SEED_BUCKETS _ ?_ ⟨Or.inl rfl, rfl, rfl⟩
    intro st bucket hb hst
    refine foldl_inv Inv _ candidates _ ?_ hst
    intro st' vb hvb hst'
    by_cases hbv : vb.2 ≠ bucket
    · simpa [hbv] using hst'
    · simp only [hbv, if_false]
      push_neg at hbv
      have hhit : hasHitsVal st'.cache (eqCacheKey label year vb.1) = true := by
        rw [hHitsEq st' hst']
        exact h1 vb hvb (hbv ▸ hb)
      obtain ⟨hc, he, hd⟩ := eqProbe_cached P label year bq vb.2 vb.1 st' hhit
      exact ⟨Or.inr (by rw [hc, hLoadEq st' hst']), by rw [he, hst'.2.1],
        by rw [hd, hst'.2.2]⟩
  have hB : Inv (stageB P label year bq candidates limit
      (stageA P label year bq candidates ⟨cache0, [], [], []⟩)) := by
    refine foldl_inv Inv _ DISCOVERY_BUCKETS_A _ ?_ hA
    intro st bucket hb hst
    refine foldl_inv Inv _ _ _ ?_ hst
    intro st' seed hseed hst'
    obtain ⟨vb, hvb, hvb2⟩ := List.mem_filterMap.mp hseed
    have hvbb : vb.2 = bucket ∧ vb.1 = seed := by
      by_cases h : vb.2 = bucket
      · simp [h] at hvb2
        exact ⟨h, hvb2⟩
      · simp [h] at hvb2
    have hhit1 : hasHitsVal st'.cache (discCacheKey label year seed) = true := by
      rw [hHitsEq st' hst']
      rw [← hvbb.2]
      exact h2 vb hvb (hvbb.1 ▸ hb)
    have hhit3 : hasHitsVal st'.cache (eqCacheKey label year "cached_hit") = true := by
      rw [hHitsEq st' hst']
      exact h3
    obtain ⟨hc, he, hd⟩ := discoverStep_cached P label year bq limit bucket seed st' hhit1 hhit3
    exact ⟨Or.inr (by rw [hc, hLoadEq st' hst']), by rw [he, hst'.2.1],
      by rw [hd, hst'.2.2]⟩
  exact ⟨hB.2.1, hB.2.2⟩

/-- Witness for the amended C1: the run of `cexProvider` on the single
candidate `("A", "orig")` over `populatedCache` makes zero provider calls. -/
theorem C1_fully_cached_zero_calls_witness :
    (resolve_eq_then_discovery cexProvider "provider" none "A" [("A", "orig")]
        120 populatedCache).eq_calls = [] ∧
    (resolve_eq_then_discovery cexProvider "provider" none "A" [("A", "orig")]
        120 populatedCache).disc_calls = [] :=
  C1_fully_cached_zero_calls cexProvider "provider" none "A" [("A", "orig")]
    120 populatedCache (by decide) (by decide) (by decide)

/-! ### Lemmas about the whitespace-normal shape of `norm`'s output (C4) -/

/-- Membership survives `dropWhile`. -/
theorem mem_dropWhile {p : Char → Bool} :
    ∀ {l : List Char} {c : Char}, c ∈ l.dropWhile p → c ∈ l := by
  intro l
  induction l with
  | nil => intro c h; exact absurd h (List.not_mem_nil c)
  | cons a as ih =>
    intro c h
    rw [List.dropWhile_cons] at h
    by_cases hp : p a
    · simp only [hp, if_true] at h
      exact List.mem_cons_of_mem a (ih h)
    · simp only [hp, if_false] at h
      exact h

/-- `dropWhile` is idempotent. -/
theorem dropWhile_idem (p : Char → Bool) :
    ∀ l : List Char, (l.dropWhile p).dropWhile p = l.dropWhile p := by
  intro l
  induction l with
  | nil => rfl
  | cons a as ih =>
    rw [List.dropWhile_cons]
    by_cases hp : p a
    · rw [if_pos hp]; exact ih
    · rw [if_neg hp, List.dropWhile_cons, if_neg hp]

/-- The head of a `dropWhile p` image does not satisfy `p`. -/
theorem head_dropWhile_not (p : Char → Bool) :
    ∀ (l : List Char) (a : Char), (l.dropWhile p).head? = some a → p a = false := by
  intro l
  induction l with
  | nil => intro a h; cases h
  | cons b bs ih =>
    intro a h
    rw [List.dropWhile_cons] at h
    by_cases hp : p b
    · simp only [hp, if_true] at h; exact ih a h
    · simp only [hp, if_false, List.head?_cons, Option.some.injEq] at h
      cases h
      exact Bool.not_eq_true _ ▸ (by simpa using hp)

/-- `dropWhile` is the identity when the head does not satisfy `p`. -/
theorem dropWhile_eq_self_of_head (p : Char → Bool) (l : List Char)
    (h : ∀ a, l.head? = some a → p a = false) : l.dropWhile p = l := by
  cases l with
  | nil => rfl
  | cons a as =>
    rw [List.dropWhile_cons, if_neg]
    intro hp
    have := h a rfl
    rw [this] at hp
    cases hp

/-- `rstripWs` keeps a prefix of the list. -/
theorem rstripWs_prefix (l : List Char) :
    rstripWs l ++ (l.reverse.takeWhile isWsC).reverse = l := by
  rw [rstripWs, ← List.reverse_append]
  rw [List.takeWhile_append_dropWhile (p := isWsC) (l := l.reverse)]
  exact List.reverse_reverse l

/-- Membership survives `rstripWs`. -/
theorem mem_rstripWs {l : List Char} {c : Char} (h : c ∈ rstripWs l) : c ∈ l := by
  have := rstripWs_prefix l
  rw [← this]
  exact List.mem_append_left _ h

/-- Membership survives `stripWs`. -/
theorem mem_stripWs {l : List Char} {c : Char} (h : c ∈ stripWs l) : c ∈ l :=
  mem_dropWhile (mem_rstripWs h)

/-- Every character of a `wsRunsToSpaceAux` image is from the input or a
space. -/
theorem mem_wsRunsToSpaceAux :
    ∀ (b : Bool) (l : List Char) (c : Char),
      c ∈ wsRunsToSpaceAux b l → c ∈ l ∨ c = ' ' := by
  intro b l
  induction l generalizing b with
  | nil => intro c h; cases h
  | cons a as ih =>
    intro c h
    rw [wsRunsToSpaceAux] at h
    by_cases hw : isWsC a
    · rw [if_pos hw] at h
      cases b with
      | true =>
        rcases ih true c (by simpa using h) with h' | h'
        · exact Or.inl (List.mem_cons_of_mem a h')
        · exact Or.inr h'
      | false =>
        simp only [Bool.false_eq_true, if_false] at h
        rcases List.mem_cons.mp h with rfl | h
        · exact Or.inr rfl
        · rcases ih true c h with h' | h'
          · exact Or.inl (List.mem_cons_of_mem a h')
          · exact Or.inr h'
    · rw [if_neg hw] at h
      rcases List.mem_cons.mp h with rfl | h
      · exact Or.inl (List.mem_cons_self c as)
      · rcases ih false c h with h' | h'
        · exact Or.inl (List.mem_cons_of_mem a h')
        · exact Or.inr h'

/-- Every whitespace character of a `wsRunsToSpaceAux` image is the space
character. -/
theorem allSp_wsRunsToSpaceAux :
    ∀ (b : Bool) (l : List Char) (c : Char),
      c ∈ wsRunsToSpaceAux b l → isWsC c = true → c = ' ' := by
  intro b l
  induction l generalizing b with
  | nil => intro c h; cases h
  | cons a as ih =>
    intro c h hws
    rw [wsRunsToSpaceAux] at h
    by_cases hw : isWsC a
    · rw [if_pos hw] at h
      cases b with
      | true => exact ih true c (by simpa using h) hws
      | false =>
        simp only [Bool.false_eq_true, if_false] at h
        rcases List.mem_cons.mp h with rfl | h
        · rfl
        · exact ih true c h hws
    · rw [if_neg hw] at h
      rcases List.mem_cons.mp h with rfl | h
      · exact absurd hws hw
      · exact ih false c h hws

/-- Characters survive `trailingDotSub`. -/
theorem mem_trailingDotSub :
    ∀ (l : List Char) (c : Char), c ∈ trailingDotSub l → c ∈ l := by
  intro l
  induction l with
  | nil => intro c h; cases h
  | cons a as ih =>
    intro c h
    rw [trailingDotSub] at h
    by_cases hc : a = '.' ∧ (as = [] ∨ as.head?.any isWsC)
    · rw [if_pos (by simp [hc.1, hc.2])] at h
      exact List.mem_cons_of_mem a (ih c h)
    · rw [if_neg (by simpa [Decidable.not_and_iff_or_not] using hc)] at h
      rcases List.mem_cons.mp h with h | h
      · exact h ▸ List.mem_cons_self a as
      · exact List.mem_cons_of_mem a (ih c h)

/-- Characters survive `singleLetterDotAux`. -/
theorem mem_singleLetterDotAux :
    ∀ (p : Option Char) (l : List Char) (c : Char),
      c ∈ singleLetterDotAux p l → c ∈ l
  | _, [], c, h => by cases h
  | _, [a], c, h => by
    rw [singleLetterDotAux] at h
    exact h
  | prev, a :: d :: rest, c, h => by
    by_cases hd : d = '.'
    · subst hd
      rw [singleLetterDotAux] at h
      by_cases hb : (isBoundary prev (some a) && ('a' ≤ a && a ≤ 'z')) = true
      · rw [if_pos hb] at h
        by_cases hr : (rest = [] || rest.head?.any isWsC) = true
        · rw [if_pos hr] at h
          rcases List.mem_cons.mp h with rfl | h
          · exact List.mem_cons_self c _
          · exact List.mem_cons_of_mem a
              (List.mem_cons_of_mem '.' (mem_singleLetterDotAux (some '.') rest c h))
        · rw [if_neg hr] at h
          rcases List.mem_cons.mp h with rfl | h
          · exact List.mem_cons_self c _
          · exact List.mem_cons_of_mem a (mem_singleLetterDotAux (some a) _ c h)
      · rw [if_neg hb] at h
        rcases List.mem_cons.mp h with rfl | h
        · exact List.mem_cons_self c _
        · exact List.mem_cons_of_mem a (mem_singleLetterDotAux (some a) _ c h)
    · rw [singleLetterDotAux] at h
      · rcases List.mem_cons.mp h with rfl | h
        · exact List.mem_cons_self c _
        · exact List.mem_cons_of_mem a (mem_singleLetterDotAux (some a) _ c h)
      · exact fun hk => absurd hk hd

/-- The whitespace-adjacency chain invariant of `wsRunsToSpaceAux`: its
output never has two adjacent whitespace characters, and in in-run mode the
output starts with a non-whitespace character. -/
theorem chain_wsRunsToSpaceAux :
    ∀ l : List Char,
      (List.Chain' (fun a b => isWsC a = false ∨ isWsC b = false)
        (wsRunsToSpaceAux false l)) ∧
      (List.Chain' (fun a b => isWsC a = false ∨ isWsC b = false)
        (wsRunsToSpaceAux true l)) ∧
      (∀ a, (wsRunsToSpaceAux true l).head? = some a → isWsC a = false) := by
  intro l
  induction l with
  | nil => exact ⟨List.chain'_nil, List.chain'_nil, fun a h => by cases h⟩
  | cons c cs ih =>
    obtain ⟨ihF, ihT, ihH⟩ := ih
    by_cases hw : isWsC c
    · refine ⟨?_, ?_, ?_⟩
      · show List.Chain' _ (wsRunsToSpaceAux false (c :: cs))
        rw [wsRunsToSpaceAux, if_pos hw]
        simp only [Bool.false_eq_true, if_false]
        exact List.chain'_cons'.mpr ⟨fun b hb => Or.inr (ihH b hb), ihT⟩
      · show List.Chain' _ (wsRunsToSpaceAux true (c :: cs))
        rw [wsRunsToSpaceAux, if_pos hw]
        simpa using ihT
      · intro a ha
        rw [wsRunsToSpaceAux, if_pos hw] at ha
        exact ihH a (by simpa using ha)
    · have hcons : ∀ b : Bool, wsRunsToSpaceAux b (c :: cs) =
          c :: wsRunsToSpaceAux false cs := by
        intro b
        rw [wsRunsToSpaceAux, if_neg hw]
      refine ⟨?_, ?_, ?_⟩
      · rw [hcons false]
        exact List.chain'_cons'.mpr
          ⟨fun b _ => Or.inl (by simpa using hw), ihF⟩
      · rw [hcons true]
        exact List.chain'_cons'.mpr
          ⟨fun b _ => Or.inl (by simpa using hw), ihF⟩
      · intro a ha
        rw [hcons true] at ha
        simp only [List.head?_cons, Option.some.injEq] at ha
        cases ha
        simpa using hw

/-- On a string whose whitespace is only single spaces at non-adjacent
positions, `wsRunsToSpaceAux false` is the identity (and in in-run mode too
when the head is not whitespace). -/
theorem wsRunsFix :
    ∀ l : List Char, (∀ c ∈ l, isWsC c = true → c = ' ') →
      List.Chain' (fun a b => isWsC a = false ∨ isWsC b = false) l →
      wsRunsToSpaceAux false l = l ∧
        ((∀ a, l.head? = some a → isWsC a = false) →
          wsRunsToSpaceAux true l = l) := by
  intro l
  induction l with
  | nil => exact fun _ _ => ⟨rfl, fun _ => rfl⟩
  | cons c cs ih =>
    intro hsp hch
    have hch' := (List.chain'_cons'.mp hch)
    obtain ⟨ihF, ihT⟩ := ih (fun d hd => hsp d (List.mem_cons_of_mem c hd)) hch'.2
    by_cases hw : isWsC c
    · have hc : c = ' ' := hsp c (List.mem_cons_self c cs) (by simpa using hw)
      have hcsH : ∀ a, cs.head? = some a → isWsC a = false := by
        intro a ha
        rcases hch'.1 a ha with h | h
        · rw [hc] at h
          simp [isWsC] at h
        · exact h
      constructor
      · rw [wsRunsToSpaceAux, if_pos hw]
        simp only [Bool.false_eq_true, if_false]
        rw [ihT hcsH, hc]
      · intro hh
        have := hh c rfl
        simp [this] at hw
    · have hcons : ∀ b : Bool, wsRunsToSpaceAux b (c :: cs) =
          c :: wsRunsToSpaceAux false cs := by
        intro b
        rw [wsRunsToSpaceAux, if_neg hw]
      exact ⟨by rw [hcons false, ihF], fun _ => by rw [hcons true, ihF]⟩

/-- The head of a prefix is the head of the whole list. -/
theorem head?_of_prefix_eq {x t y : List Char} {a : Char}
    (h : x ++ t = y) (hx : x.head? = some a) : y.head? = some a := by
  cases x with
  | nil => cases hx
  | cons b bs =>
    simp only [List.head?_cons, Option.some.injEq] at hx
    cases hx
    rw [← h]
    rfl

/-- The head of `stripWs l` is not whitespace. -/
theorem head_stripWs_not_ws (l : List Char) (a : Char)
    (h : (stripWs l).head? = some a) : isWsC a = false := by
  have hp := rstripWs_prefix (lstripWs l)
  exact head_dropWhile_not isWsC l a (head?_of_prefix_eq hp h)

/-- The last element of `stripWs l` is not whitespace. -/
theorem getLast_stripWs_not_ws (l : List Char) (a : Char)
    (h : (stripWs l).getLast? = some a) : isWsC a = false := by
  have : (stripWs l).getLast? =
      ((lstripWs l).reverse.dropWhile isWsC).head? := by
    show (rstripWs (lstripWs l)).getLast? = _
    rw [rstripWs, List.getLast?_reverse]
  rw [this] at h
  exact head_dropWhile_not isWsC (lstripWs l).reverse a h

/-- `stripWs` is the identity on lists with non-whitespace ends. -/
theorem stripWs_eq_self (l : List Char)
    (hh : ∀ a, l.head? = some a → isWsC a = false)
    (hl : ∀ a, l.getLast? = some a → isWsC a = false) : stripWs l = l := by
  have h1 : lstripWs l = l := dropWhile_eq_self_of_head isWsC l hh
  show rstripWs (lstripWs l) = l
  rw [h1, rstripWs]
  rw [dropWhile_eq_self_of_head isWsC l.reverse
    (fun a ha => hl a (by rw [← List.head?_reverse]; exact ha))]
  exact List.reverse_reverse l

/-- `stripWs` is idempotent. -/
theorem stripWs_idem (l : List Char) : stripWs (stripWs l) = stripWs l :=
  stripWs_eq_self _ (head_stripWs_not_ws l) (getLast_stripWs_not_ws l)

/-- `Chain'` survives `dropWhile`. -/
theorem chain_dropWhile (R : Char → Char → Prop) (p : Char → Bool)
    (l : List Char) (h : List.Chain' R l) : List.Chain' R (l.dropWhile p) := by
  have h' : List.Chain' R (l.takeWhile p ++ l.dropWhile p) := by
    rw [List.takeWhile_append_dropWhile]
    exact h
  exact (List.chain'_append.mp h').2.1

/-- `Chain'` survives `rstripWs` (a prefix). -/
theorem chain_rstripWs (R : Char → Char → Prop) (l : List Char)
    (h : List.Chain' R l) : List.Chain' R (rstripWs l) := by
  have hp := rstripWs_prefix l
  have h' : List.Chain' R (rstripWs l ++ (l.reverse.takeWhile isWsC).reverse) := by
    rw [hp]; exact h
  exact (List.chain'_append.mp h').1

/-- `Chain'` survives `stripWs`. -/
theorem chain_stripWs (R : Char → Char → Prop) (l : List Char)
    (h : List.Chain' R l) : List.Chain' R (stripWs l) :=
  chain_rstripWs R _ (chain_dropWhile R isWsC l h)

/-- The whitespace-collapse-and-strip tail of `norm` is idempotent: applied
to one of its own images it is the identity, and so is a plain strip. -/
theorem squashStrip_fix (z : List Char) :
    stripWs (wsRunsToSpace (stripWs (wsRunsToSpace z))) = stripWs (wsRunsToSpace z) ∧
    stripWs (stripWs (wsRunsToSpace z)) = stripWs (wsRunsToSpace z) := by
  set y := stripWs (wsRunsToSpace z) with hy
  have hallSp : ∀ c ∈ y, isWsC c = true → c = ' ' := by
    intro c hc hws
    exact allSp_wsRunsToSpaceAux false z c (mem_stripWs hc) hws
  have hchain : List.Chain' (fun a b => isWsC a = false ∨ isWsC b = false) y :=
    chain_stripWs _ _ (chain_wsRunsToSpaceAux z).1
  have hfix := wsRunsFix y hallSp hchain
  constructor
  · show stripWs (wsRunsToSpaceAux false y) = y
    rw [hfix.1]
    exact stripWs_idem _
  · exact stripWs_idem _

/-- The final squash of `norm` fixes `norm`'s own output (and so does a
plain strip). -/
theorem norm_squash_fix (U : UniModel) (s : List Char) :
    stripWs (wsRunsToSpace (norm U s)) = norm U s ∧
    stripWs (norm U s) = norm U s :=
  squashStrip_fix (trailingDotSub (singleLetterDotSub (List.filter normKeep
    (trailingSlashTagSub (U.lower (ampToAnd (U.nfkc (U.strip_accents
      (unescapeLoop U 4 (stripWs s))))))))))

/-- `_ampersand_to_and` is the identity on `&`-free strings. -/
theorem ampToAnd_of_not_mem : ∀ l : List Char, '&' ∉ l → ampToAnd l = l := by
  intro l
  induction l with
  | nil => intro _; rfl
  | cons c cs ih =>
    intro h
    have hc : c ≠ '&' := fun hc => h (hc ▸ List.mem_cons_self c cs)
    have hcs : '&' ∉ cs := fun hm => h (List.mem_cons_of_mem c hm)
    have ih' := ih hcs
    simp only [ampToAnd] at ih' ⊢
    rw [List.flatMap_cons, if_neg hc, ih']
    rfl

/-- The bounded unescape loop is the identity at a fixpoint of `unescape`. -/
theorem unescapeLoop_fix (U : UniModel) (n : Nat) (x : List Char)
    (h : U.unescape x = x) : unescapeLoop U n x = x := by
  cases n with
  | zero => rfl
  | succ m => simp [unescapeLoop, h]

/-- Every character of `norm`'s output is in the kept character class. -/
theorem norm_kept (U : UniModel) (s : List Char) :
    ∀ c ∈ norm U s, normKeep c = true := by
  intro c hc
  have hc' : c ∈ stripWs (wsRunsToSpace (trailingDotSub (singleLetterDotSub
      (List.filter normKeep (trailingSlashTagSub (U.lower (ampToAnd (U.nfkc
        (U.strip_accents (unescapeLoop U 4 (stripWs s))))))))))) := hc
  have h1 := mem_stripWs hc'
  rcases mem_wsRunsToSpaceAux false _ c h1 with h2 | h2
  · have h3 := mem_trailingDotSub _ c h2
    have h4 := mem_singleLetterDotAux none _ c h3
    exact List.of_mem_filter h4
  · rw [h2]; decide

/-- `norm`'s character filter fixes `norm`'s own output. -/
theorem filter_norm (U : UniModel) (s : List Char) :
    (norm U s).filter normKeep = norm U s :=
  List.filter_eq_self.mpr (fun c hc => norm_kept U s c hc)

/-- If every pipeline stage of `norm` fixes a string `y`, then `norm` fixes
`y`. -/
theorem norm_fix_of_stage_fixed (U : UniModel) (y : List Char)
    (hstrip : stripWs y = y)
    (hU : U.unescape y = y)
    (hsa : U.strip_accents y = y)
    (hn : U.nfkc y = y)
    (hl : U.lower y = y)
    (hamp : '&' ∉ y)
    (htag : trailingSlashTagSub y = y)
    (hdot1 : singleLetterDotSub y = y)
    (hdot2 : trailingDotSub y = y)
    (hfilter : y.filter normKeep = y)
    (hsquash : stripWs (wsRunsToSpace y) = y) :
    norm U y = y := by
  show stripWs (wsRunsToSpace (trailingDotSub (singleLetterDotSub
    (List.filter normKeep (trailingSlashTagSub (U.lower (ampToAnd (U.nfkc
      (U.strip_accents (unescapeLoop U 4 (stripWs y))))))))))) = y
  rw [hstrip, unescapeLoop_fix U 4 y hU, hsa, hn, ampToAnd_of_not_mem y hamp,
    hl, htag, hfilter, hdot1, hdot2, hsquash]

/-- C4 counterexample: `norm` is **not** idempotent. On `"ab.."` the
trailing-period stage removes only the final period (the previous one is not
followed by whitespace or end), so `norm("ab..") = "ab."` while
`norm("ab.") = "ab"`. The Unicode stages are instantiated with the
ASCII-exact model. -/
theorem C4_norm_not_idempotent :
    norm asciiUni ("ab..").data = ("ab.").data ∧
    norm asciiUni (norm asciiUni ("ab..").data) = ("ab").data ∧
    norm asciiUni (norm asciiUni ("ab..").data) ≠ norm asciiUni ("ab..").data := by
  refine ⟨by decide, by decide, by decide⟩

/-- C4 amended: `norm` is idempotent on every string whose normal form is
fixed by each pipeline stage — the Unicode stages fix it, it contains no
ampersand, no trailing slash-tag match, and no period removable by the
single-letter-dot or trailing-period stages. (The strip, character-filter
and whitespace-collapse stages are proved to fix `norm`'s output
unconditionally; the remaining stages genuinely can rewrite a normal form
again, as the counterexample shows.) -/
theorem C4_norm_idempotent_amended (U : UniModel) (s : List Char)
    (hU : U.unescape (norm U s) = norm U s)
    (hsa : U.strip_accents (norm U s) = norm U s)
    (hn : U.nfkc (norm U s) = norm U s)
    (hl : U.lower (norm U s) = norm U s)
    (hamp : '&' ∉ norm U s)
    (htag : trailingSlashTagSub (norm U s) = norm U s)
    (hdot1 : singleLetterDotSub (norm U s) = norm U s)
    (hdot2 : trailingDotSub (norm U s) = norm U s) :
    norm U (norm U s) = norm U s :=
  norm_fix_of_stage_fixed U (norm U s) (norm_squash_fix U s).2 hU hsa hn hl
    hamp htag hdot1 hdot2 (filter_norm U s) (norm_squash_fix U s).1

/-- Witness for the amended C4 at `s = "acme inc"` with the ASCII model. -/
theorem C4_norm_idempotent_amended_witness :
    norm asciiUni (norm asciiUni ("acme inc").data) =
      norm asciiUni ("acme inc").data :=
  C4_norm_idempotent_amended asciiUni ("acme inc").data (by decide) (by decide)
    (by decide) (by decide) (by decide) (by decide) (by decide) (by decide)

/-! ### The discovery boundary guard (C8) -/

/-- One assignee step of the harvesting fold: `out` and `seen` stay equal,
and membership in `out` is membership before the step or a contribution by
this field. -/
theorem harvestStep_char (pfx : List Char) (p : List (List Char) × List (List Char))
    (hp : p.1 = p.2) (orgField : Option (List Char)) :
    (harvestStep pfx p orgField).1 = (harvestStep pfx p orgField).2 ∧
    ∀ x, x ∈ (harvestStep pfx p orgField).1 ↔
      (x ∈ p.1 ∨ ∃ org, orgField = some org ∧ org ≠ [] ∧ stripWs org = x ∧
        boundaryGuard pfx x = true) := by
  obtain ⟨out, seen⟩ := p
  simp only at hp
  subst hp
  unfold harvestStep
  cases orgField with
  | none =>
    refine ⟨rfl, ?_⟩
    intro x
    simp
  | some org =>
    by_cases h0 : org = []
    · subst h0
      refine ⟨by simp, ?_⟩
      intro x
      simp
    · simp only [if_neg h0]
      by_cases hg : boundaryGuard pfx (stripWs org) = true
      · simp only [hg, if_true]
        by_cases hs : stripWs org ∈ out
        · simp only [hs, if_true]
          refine ⟨trivial, ?_⟩
          intro x
          constructor
          · intro hx
            exact Or.inl hx
          · intro hx
            rcases hx with hx | ⟨org', heq, hne, hstr, hgx⟩
            · exact hx
            · cases heq
              exact hstr ▸ hs
        · simp only [hs, if_false]
          refine ⟨trivial, ?_⟩
          intro x
          rw [List.mem_append, List.mem_singleton]
          constructor
          · intro hx
            rcases hx with hx | hx
            · exact Or.inl hx
            · exact Or.inr ⟨org, rfl, h0, hx.symm, hx ▸ hg⟩
          · intro hx
            rcases hx with hx | ⟨org', heq, hne, hstr, hgx⟩
            · exact Or.inl hx
            · cases heq
              exact Or.inr hstr.symm
      · simp only [hg, if_false]
        refine ⟨rfl, ?_⟩
        intro x
        constructor
        · intro hx
          exact Or.inl hx
        · intro hx
          rcases hx with hx | ⟨org', heq, hne, hstr, hgx⟩
          · exact hx
          · cases heq
            rw [hstr] at hg
            exact absurd hgx hg

/-- Fold characterization over one assignee list. -/
theorem harvestFoldInner_char (pfx : List Char) :
    ∀ (assignees : List (Option (List Char)))
      (p : List (List Char) × List (List Char)), p.1 = p.2 →
      (assignees.foldl (harvestStep pfx) p).1 =
        (assignees.foldl (harvestStep pfx) p).2 ∧
      ∀ x, x ∈ (assignees.foldl (harvestStep pfx) p).1 ↔
        (x ∈ p.1 ∨ ∃ f ∈ assignees, ∃ org, f = some org ∧ org ≠ [] ∧
          stripWs org = x ∧ boundaryGuard pfx x = true) := by
  intro assignees
  induction assignees with
  | nil =>
    intro p hp
    exact ⟨hp, fun x => by simp⟩
  | cons f fs ih =>
    intro p hp
    obtain ⟨hstep1, hstep2⟩ := harvestStep_char pfx p hp f
    obtain ⟨ih1, ih2⟩ := ih (harvestStep pfx p f) hstep1
    rw [List.foldl_cons]
    refine ⟨ih1, ?_⟩
    intro x
    rw [ih2 x, hstep2 x]
    constructor
    · intro hx
      rcases hx with (hx | ⟨org, ho, hne, hs, hg⟩) | ⟨f', hf', rest⟩
      · exact Or.inl hx
      · exact Or.inr ⟨f, List.mem_cons_self f fs, org, ho, hne, hs, hg⟩
      · exact Or.inr ⟨f', List.mem_cons_of_mem f hf', rest⟩
    · intro hx
      rcases hx with hx | ⟨f', hf', rest⟩
      · exact Or.inl (Or.inl hx)
      · rcases List.mem_cons.mp hf' with rfl | hf'
        · exact Or.inl (Or.inr rest)
        · exact Or.inr ⟨f', hf', rest⟩

/-- C8 amended: an organization string `x` is in the harvested output iff
some patent's assignee has a nonempty organization field whose stripped form
is `x` and `x` passes the code's boundary guard: the stripped prefix is
nonempty and a string-prefix of `x`, or the word-normalized prefix is
nonempty and the word-normalized `x` starts with it at a token boundary
(end-of-string or a space right after). -/
theorem C8_harvest_membership (pfx : List Char)
    (patents : List (List (Option (List Char)))) (x : List Char) :
    x ∈ discover_orgs_filter pfx patents ↔
      ∃ assignees ∈ patents, ∃ f ∈ assignees, ∃ org, f = some org ∧
        org ≠ [] ∧ stripWs org = x ∧ boundaryGuard pfx x = true := by
  have main : ∀ (ps : List (List (Option (List Char))))
      (p : List (List Char) × List (List Char)), p.1 = p.2 →
      (ps.foldl (fun p assignees => assignees.foldl (harvestStep pfx) p) p).1 =
        (ps.foldl (fun p assignees => assignees.foldl (harvestStep pfx) p) p).2 ∧
      ∀ y, y ∈ (ps.foldl (fun p assignees =>
          assignees.foldl (harvestStep pfx) p) p).1 ↔
        (y ∈ p.1 ∨ ∃ assignees ∈ ps, ∃ f ∈ assignees, ∃ org, f = some org ∧
          org ≠ [] ∧ stripWs org = y ∧ boundaryGuard pfx y = true) := by
    intro ps
    induction ps with
    | nil =>
      intro p hp
      exact ⟨hp, fun y => by simp⟩
    | cons a as ih =>
      intro p hp
      obtain ⟨h1, h2⟩ := harvestFoldInner_char pfx a p hp
      obtain ⟨ih1, ih2⟩ := ih (a.foldl (harvestStep pfx) p) h1
      rw [List.foldl_cons]
      refine ⟨ih1, ?_⟩
      intro y
      rw [ih2 y, h2 y]
      constructor
      · intro hy
        rcases hy with (hy | ⟨f, hf, rest⟩) | ⟨asg, hasg, rest⟩
        · exact Or.inl hy
        · exact Or.inr ⟨a, List.mem_cons_self a as, f, hf, rest⟩
        · exact Or.inr ⟨asg, List.mem_cons_of_mem a hasg, rest⟩
      · intro hy
        rcases hy with hy | ⟨asg, hasg, rest⟩
        · exact Or.inl (Or.inl hy)
        · rcases List.mem_cons.mp hasg with rfl | hasg
          · exact Or.inl (Or.inr rest)
          · exact Or.inr ⟨asg, hasg, rest⟩
  have h := (main patents ([], []) rfl).2 x
  unfold discover_orgs_filter
  rw [h]
  simp

/-- C8 counterexample: with the empty prefix, the claim's clause (a)
(`p` is a string-prefix of `o`) holds for every organization, yet the code
harvests nothing: `want_raw` is empty so `raw_ok` is false, and
`want_words` is empty so `boundary_ok` is false. -/
theorem C8_empty_prefix_counterexample :
    List.isPrefixOf ([] : List Char) ("x").data = true ∧
    ("x").data ∉ discover_orgs_filter [] [[some ("x").data]] ∧
    discover_orgs_filter [] [[some ("x").data]] = [] := by
  refine ⟨by decide, by decide, by decide⟩

/-! ### pick_top_matches (C9) -/

/-- C9 counterexample: for target `"acme"` and rows
`[{lei L1, legal "Acme ADR"}, {lei L2, legal "zzz"}]`, the ADR-decorated
row matches `exact_norm_legal` and the marker-free row `"zzz"` matches no
rule, so the status is `adr_only_candidates` — yet not all candidates carry
depositary-receipt markers (`"zzz"` does not). -/
theorem C9_adr_only_counterexample :
    (pick_top_matches asciiUni
      [⟨"L1", "Acme ADR", [], ""⟩, ⟨"L2", "zzz", [], ""⟩] "acme").2.1 =
      "adr_only_candidates" ∧
    rowAdrLike asciiUni ⟨"L2", "zzz", [], ""⟩ = false := by
  refine ⟨by decide, by decide⟩

/-- C9 amended: the status is `adr_only_candidates` exactly when the row
list is nonempty, at least one row carries a depositary-receipt marker, and
no marker-free candidate matched a rule with a nonempty LEI; and a returned
top match always comes from a marker-free candidate (ADR-decorated
candidates never appear in the returned list, regardless of rule
priority). -/
theorem C9_adr_amended (U : UniModel) (rows : List GleifRow) (target : String) :
    ((pick_top_matches U rows target).2.1 = "adr_only_candidates" ↔
      rows ≠ [] ∧ rows.any (rowAdrLike U) = true ∧
        List.filter (fun c => ¬ c.2.2) (rawCands U rows target) = []) ∧
    ∀ d ∈ (pick_top_matches U rows target).1,
      ∃ c ∈ rawCands U rows target, c.2.1 = d ∧ c.2.2 = false := by
  simp only [pick_top_matches]
  split
  next heq =>
    constructor
    · constructor
      · intro hs
        by_cases hb : (decide (rows ≠ []) && rows.any (rowAdrLike U)) = true
        · rw [Bool.and_eq_true] at hb
          exact ⟨of_decide_eq_true hb.1, hb.2, heq⟩
        · rw [if_neg hb] at hs
          by_cases hb2 : (decide (rows ≠ []) && !rows.any rowHasAscii) = true
          · rw [if_pos hb2] at hs
            exact absurd hs (by decide)
          · rw [if_neg hb2] at hs
            exact absurd hs (by decide)
      · rintro ⟨ha, hb, _⟩
        have hcond : (decide (rows ≠ []) && rows.any (rowAdrLike U)) = true := by
          rw [Bool.and_eq_true]
          exact ⟨decide_eq_true ha, hb⟩
        rw [if_pos hcond]
    · intro d hd
      by_cases hb : (decide (rows ≠ []) && rows.any (rowAdrLike U)) = true
      · rw [if_pos hb] at hd
        simp at hd
      · rw [if_neg hb] at hd
        by_cases hb2 : (decide (rows ≠ []) && !rows.any rowHasAscii) = true
        · rw [if_pos hb2] at hd
          simp at hd
        · rw [if_neg hb2] at hd
          simp at hd
  next c0 rest heq =>
    have hsub : ∀ d, d ∈ (List.filter
        (fun c => decide (rulePriority c.1 = List.foldl
          (fun m c => max m (rulePriority c.1)) (rulePriority c0.1) rest))
        (c0 :: rest)).map (fun c => c.2.1) →
        ∃ c ∈ rawCands U rows target, c.2.1 = d ∧ c.2.2 = false := by
      intro d hd
      obtain ⟨c, hc, hcd⟩ := List.mem_map.mp hd
      have hc1 : c ∈ c0 :: rest := (List.mem_filter.mp hc).1
      rw [← heq] at hc1
      have hc2 := List.mem_filter.mp hc1
      refine ⟨c, hc2.1, hcd, ?_⟩
      simpa using hc2.2
    split
    next d0 hm =>
      constructor
      · constructor
        · intro hs
          simp at hs
        · rintro ⟨_, _, habs⟩
          rw [heq] at habs
          exact List.noConfusion habs
      · intro d hd
        rw [List.mem_singleton.mp hd]
        exact hsub d0 (hm ▸ List.mem_singleton.mpr rfl)
    next d0 ds hm =>
      constructor
      · constructor
        · intro hs
          simp at hs
        · rintro ⟨_, _, habs⟩
          rw [heq] at habs
          exact List.noConfusion habs
      · intro d hd
        exact hsub d (hm ▸ hd)
    next hm =>
      constructor
      · constructor
        · intro hs
          simp at hs
        · rintro ⟨_, _, habs⟩
          rw [heq] at habs
          exact List.noConfusion habs
      · intro d hd
        simp at hd

/-! ### Whitespace squashing is idempotent -/

/-- Every word produced by `wordsChAux` is nonempty and whitespace-free
(provided the accumulator is whitespace-free). -/
theorem wordsChAux_nonempty_nonws :
    ∀ (l acc : List Char), (∀ c ∈ acc, isWsC c = false) →
      ∀ w ∈ wordsChAux l acc, w ≠ [] ∧ ∀ c ∈ w, isWsC c = false := by
  intro l
  induction l with
  | nil =>
    intro acc hacc w hw
    simp only [wordsChAux] at hw
    by_cases ha : acc = []
    · simp [ha] at hw
    · rw [if_neg ha] at hw
      rw [List.mem_singleton.mp hw]
      refine ⟨by simpa using ha, ?_⟩
      intro c hc
      exact hacc c (List.mem_reverse.mp hc)
  | cons c cs ih =>
    intro acc hacc w hw
    simp only [wordsChAux] at hw
    by_cases hc : isWsC c = true
    · rw [if_pos hc] at hw
      by_cases ha : acc = []
      · rw [if_pos ha] at hw
        exact ih [] (by simp) w hw
      · rw [if_neg ha] at hw
        rcases List.mem_cons.mp hw with h | h
        · rw [h]
          refine ⟨by simpa using ha, ?_⟩
          intro d hd
          exact hacc d (List.mem_reverse.mp hd)
        · exact ih [] (by simp) w h
    · rw [if_neg hc] at hw
      refine ih (c :: acc) ?_ w hw
      intro d hd
      rcases List.mem_cons.mp hd with h | h
      · rw [h]
        simpa using hc
      · exact hacc d h

/-- Scanning a whitespace-free chunk just accumulates it. -/
theorem wordsChAux_append_word :
    ∀ (w : List Char), (∀ c ∈ w, isWsC c = false) →
      ∀ (rest acc : List Char),
        wordsChAux (w ++ rest) acc = wordsChAux rest (w.reverse ++ acc) := by
  intro w
  induction w with
  | nil => intro _ rest acc; simp
  | cons c cs ih =>
    intro hw rest acc
    have hc : isWsC c = false := hw c (List.mem_cons_self c cs)
    simp only [List.cons_append, wordsChAux]
    rw [if_neg (by simp [hc])]
    rw [show cs.append rest = cs ++ rest from rfl]
    rw [ih (fun d hd => hw d (List.mem_cons_of_mem c hd)) rest (c :: acc)]
    simp

/-- Scanning only whitespace flushes the accumulator and stops. -/
theorem wordsChAux_ws_all :
    ∀ (t : List Char), (∀ c ∈ t, isWsC c = true) →
      ∀ acc, wordsChAux t acc = if acc = [] then [] else [acc.reverse] := by
  intro t
  induction t with
  | nil => intro _ acc; simp [wordsChAux]
  | cons c cs ih =>
    intro ht acc
    have hc := ht c (List.mem_cons_self c cs)
    have ihe := ih (fun d hd => ht d (List.mem_cons_of_mem c hd))
    simp only [wordsChAux]
    rw [if_pos hc]
    by_cases ha : acc = []
    · rw [if_pos ha, if_pos ha, ihe []]
      simp
    · rw [if_neg ha, if_neg ha, ihe []]
      simp

/-- A trailing all-whitespace suffix does not change the word split. -/
theorem wordsChAux_append_ws :
    ∀ (l t : List Char), (∀ c ∈ t, isWsC c = true) →
      ∀ acc, wordsChAux (l ++ t) acc = wordsChAux l acc := by
  intro l
  induction l with
  | nil =>
    intro t ht acc
    rw [List.nil_append, wordsChAux_ws_all t ht acc]
    simp [wordsChAux]
  | cons c cs ih =>
    intro t ht acc
    simp only [List.cons_append, wordsChAux]
    by_cases hc : isWsC c = true
    · rw [if_pos hc, if_pos hc]
      by_cases ha : acc = [] <;> simp [ha, ih t ht]
    · rw [if_neg hc, if_neg hc]
      exact ih t ht (c :: acc)

/-- Right-stripping whitespace does not change the word split. -/
theorem wordsCh_rstripWs (l : List Char) : wordsCh (rstripWs l) = wordsCh l := by
  have h := List.takeWhile_append_dropWhile (p := isWsC) (l := l.reverse)
  have hsplit : rstripWs l ++ (l.reverse.takeWhile isWsC).reverse = l := by
    have h2 : ((l.reverse.takeWhile isWsC) ++ (l.reverse.dropWhile isWsC)).reverse
        = l := by rw [h]; simp
    rw [List.reverse_append] at h2
    exact h2
  conv_rhs => rw [← hsplit]
  rw [wordsCh, wordsCh, wordsChAux_append_ws]
  intro c hc
  exact List.mem_takeWhile_imp (List.mem_reverse.mp hc)

/-- Left-stripping whitespace does not change the word split. -/
theorem wordsCh_lstripWs (l : List Char) : wordsCh (lstripWs l) = wordsCh l := by
  induction l with
  | nil => rfl
  | cons c cs ih =>
    by_cases hc : isWsC c = true
    · have hdrop : lstripWs (c :: cs) = lstripWs cs := by
        simp [lstripWs, List.dropWhile_cons, hc]
      rw [hdrop, ih]
      simp [wordsCh, wordsChAux, hc]
    · simp [lstripWs, List.dropWhile_cons, hc]

/-- Stripping outer whitespace does not change the word split. -/
theorem wordsCh_stripWs (l : List Char) : wordsCh (stripWs l) = wordsCh l := by
  rw [show stripWs l = rstripWs (lstripWs l) from rfl, wordsCh_rstripWs,
    wordsCh_lstripWs]

/-- Splitting a single-space join of nonempty whitespace-free words recovers
the words. -/
theorem wordsCh_joinSp :
    ∀ (ws : List (List Char)),
      (∀ w ∈ ws, w ≠ [] ∧ ∀ c ∈ w, isWsC c = false) →
      wordsCh (joinSp ws) = ws := by
  intro ws
  induction ws with
  | nil => intro _; rfl
  | cons w ws' ih =>
    intro h
    rcases h w (List.mem_cons_self w ws') with ⟨hne, hnw⟩
    cases ws' with
    | nil =>
      have hj : joinSp [w] = w := by simp [joinSp, List.intercalate]
      rw [hj]
      have h1 := wordsChAux_append_word w hnw [] []
      rw [List.append_nil] at h1
      rw [wordsCh, h1]
      simp only [wordsChAux, List.append_nil]
      rw [if_neg (by simpa using hne)]
      simp
    | cons v vs =>
      have hj : joinSp (w :: v :: vs) = w ++ ' ' :: joinSp (v :: vs) := by
        simp [joinSp, List.intercalate, List.intersperse]
      rw [hj, wordsCh]
      rw [wordsChAux_append_word w hnw (' ' :: joinSp (v :: vs)) []]
      simp only [wordsChAux, List.append_nil]
      rw [if_pos (by decide : isWsC ' ' = true)]
      rw [if_neg (by simpa using hne)]
      have hrest := ih (fun u hu => h u (List.mem_cons_of_mem w hu))
      rw [wordsCh] at hrest
      rw [hrest]
      simp

/-- `_squash_ws` is idempotent. -/
theorem squash_ws_idem (s : String) : squash_ws (squash_ws s) = squash_ws s := by
  have hw : wordsCh (stripWs (joinWords s.data)) = wordsCh s.data := by
    rw [wordsCh_stripWs, show joinWords s.data = joinSp (wordsCh s.data) from rfl]
    refine wordsCh_joinSp (wordsCh s.data) ?_
    intro w hwm
    exact wordsChAux_nonempty_nonws s.data [] (by simp) w hwm
  show String.mk (stripWs (joinWords (stripWs (joinWords s.data)))) = _
  rw [show joinWords (stripWs (joinWords s.data))
      = joinSp (wordsCh (stripWs (joinWords s.data))) from rfl, hw]
  rfl

/-! ### Planner phase lemmas (C5, C6, C7) -/

/-- A phase that does nothing is a segment. -/
theorem SegAdds_refl (b : Bucket) (ks : List VKind) (st : PlanState) :
    SegAdds b ks st st :=
  ⟨[], by simp, by simp, by simp, by simp, fun x hx => hx, by simp, by simp⟩

/-- Segments compose. -/
theorem SegAdds_trans {b : Bucket} {ks : List VKind} {st st1 st2 : PlanState}
    (h1 : SegAdds b ks st st1) (h2 : SegAdds b ks st1 st2) :
    SegAdds b ks st st2 := by
  obtain ⟨n1, ho1, hb1, hf1, hn1, hs1, hin1, hq1⟩ := h1
  obtain ⟨n2, ho2, hb2, hf2, hn2, hs2, hin2, hq2⟩ := h2
  refine ⟨n1 ++ n2, ?_, ?_, ?_, ?_, ?_, ?_, ?_⟩
  · rw [ho2, ho1, List.append_assoc]
  · intro it hit
    rcases List.mem_append.mp hit with h | h
    · exact hb1 it h
    · exact hb2 it h
  · intro it hit
    rcases List.mem_append.mp hit with h | h
    · exact hf1 it h
    · intro hmem
      exact hf2 it h (hs1 _ hmem)
  · rw [List.map_append, List.nodup_append]
    refine ⟨hn1, hn2, ?_⟩
    intro x hx1 hx2
    obtain ⟨it1, hit1, hxeq1⟩ := List.mem_map.mp hx1
    obtain ⟨it2, hit2, hxeq2⟩ := List.mem_map.mp hx2
    exact hf2 it2 hit2 (hxeq2 ▸ hxeq1 ▸ hin1 it1 hit1)
  · intro x hx
    exact hs2 x (hs1 x hx)
  · intro it hit
    rcases List.mem_append.mp hit with h | h
    · exact hs2 _ (hin1 it h)
    · exact hin2 it h
  · intro it hit
    rcases List.mem_append.mp hit with h | h
    · exact hq1 it h
    · exact hq2 it h

/-- `push` is a segment step. -/
theorem pushVariant_seg (n : String) (b : Bucket) (k : VKind)
    (ks : List VKind) (hk : k ∈ ks) (st : PlanState) :
    SegAdds b ks st (pushVariant n b k st) := by
  unfold pushVariant
  by_cases hc : (squash_ws n = "" || squash_ws n ∈ st.seen) = true
  · rw [if_pos (by simpa using of_decide_eq_true (by simpa using hc))]
    exact SegAdds_refl b ks st
  · have hc' : ¬ (squash_ws n = "" ∨ squash_ws n ∈ st.seen) := by
      simpa using hc
    push_neg at hc'
    rw [if_neg (by simpa using hc)]
    refine ⟨[⟨squash_ws n, b, k⟩], by simp, ?_, ?_, by simp, ?_, ?_, ?_⟩
    · intro it hit
      rw [List.mem_singleton.mp hit]
      exact ⟨rfl, hk⟩
    · intro it hit
      rw [List.mem_singleton.mp hit]
      exact hc'.2
    · intro x hx
      exact List.mem_append_left _ hx
    · intro it hit
      rw [List.mem_singleton.mp hit]
      exact List.mem_append_right _ (List.mem_singleton.mpr rfl)
    · intro it hit
      rw [List.mem_singleton.mp hit]
      exact squash_ws_idem n

/-- `_add_uc_variant` is a segment step (its item always has kind `seed`). -/
theorem add_uc_variant_seg (n : String) (b : Bucket)
    (ks : List VKind) (hk : VKind.seed ∈ ks) (st : PlanState) :
    SegAdds b ks st (add_uc_variant n b st) := by
  unfold add_uc_variant
  by_cases h1 : squash_ws (String.mk (upperChars n.data)) = ""
  · rw [if_pos h1]
    exact SegAdds_refl b ks st
  · rw [if_neg h1]
    by_cases h2 : squash_ws (String.mk (upperChars n.data)) ∈ st.seen
    · rw [if_pos h2]
      exact SegAdds_refl b ks st
    · rw [if_neg h2]
      by_cases h3 : squash_ws (String.mk (upperChars n.data)) = squash_ws n
      · rw [if_pos h3]
        refine ⟨[], by simp, by simp, by simp, by simp, ?_, by simp, by simp⟩
        intro x hx
        exact List.mem_append_left _ hx
      · rw [if_neg h3]
        refine ⟨[⟨squash_ws (String.mk (upperChars n.data)), b, .seed⟩],
          by simp, ?_, ?_, by simp, ?_, ?_, ?_⟩
        · intro it hit
          rw [List.mem_singleton.mp hit]
          exact ⟨rfl, hk⟩
        · intro it hit
          rw [List.mem_singleton.mp hit]
          exact h2
        · intro x hx
          exact List.mem_append_left _ hx
        · intro it hit
          rw [List.mem_singleton.mp hit]
          exact List.mem_append_right _ (List.mem_singleton.mpr rfl)
        · intro it hit
          rw [List.mem_singleton.mp hit]
          exact squash_ws_idem (String.mk (upperChars n.data))

/-- A fold whose every step is a segment is a segment. -/
theorem foldl_seg {α : Type} (b : Bucket) (ks : List VKind)
    (f : PlanState → α → PlanState) (l : List α)
    (h : ∀ st a, a ∈ l → SegAdds b ks st (f st a)) (st : PlanState) :
    SegAdds b ks st (l.foldl f st) := by
  induction l generalizing st with
  | nil => exact SegAdds_refl b ks st
  | cons a as ih =>
    rw [List.foldl_cons]
    exact SegAdds_trans (h st a (List.mem_cons_self a as))
      (ih (fun st' a' ha' => h st' a' (List.mem_cons_of_mem a ha')) (f st a))

/-- `expand_many` is a segment with kinds `{expand, seed}`. -/
theorem expand_many_seg (seed : String) (b : Bucket) (st : PlanState) :
    SegAdds b [.expand, .seed] st (expand_many seed b st) := by
  unfold expand_many
  refine foldl_seg b [.expand, .seed] _ _ ?_ st
  intro st' v hv
  by_cases h1 : v = ""
  · rw [if_pos h1]
    exact SegAdds_refl _ _ _
  · rw [if_neg h1]
    by_cases h2 : squash_ws v = squash_ws seed
    · rw [if_pos h2]
      exact SegAdds_refl _ _ _
    · rw [if_neg h2]
      by_cases h3 : has_designator v = true
      · rw [if_neg (by simpa using h3)]
        exact SegAdds_trans
          (pushVariant_seg v b .expand _ (by simp) st')
          (add_uc_variant_seg v b _ (by simp) _)
      · rw [if_pos (by simpa using h3)]
        exact SegAdds_refl _ _ _

/-- A guarded seed phase is a segment with kind `seed`. -/
theorem planSeedPhase_seg (n : String) (b : Bucket) (st : PlanState) :
    SegAdds b [.seed] st (planSeedPhase n b st) := by
  unfold planSeedPhase
  by_cases h : n ≠ ""
  · rw [if_pos h]
    exact SegAdds_trans (pushVariant_seg n b .seed _ (by simp) st)
      (add_uc_variant_seg n b _ (by simp) _)
  · rw [if_neg h]
    exact SegAdds_refl _ _ _

/-- A guarded expansion phase is a segment with kinds `{expand, seed}`. -/
theorem planExpandPhase_seg (n : String) (b : Bucket) (st : PlanState) :
    SegAdds b [.expand, .seed] st (planExpandPhase n b st) := by
  unfold planExpandPhase
  by_cases h : n ≠ ""
  · rw [if_pos h]
    exact expand_many_seg (squash_ws n) b st
  · rw [if_neg h]
    exact SegAdds_refl _ _ _

/-- The planner invariant is monotone in the phase bound. -/
theorem PlanInv_mono {p q : Nat} (hpq : p ≤ q) {st : PlanState}
    (h : PlanInv p st) : PlanInv q st := by
  obtain ⟨h1, h2, h3, h4, h5, h6⟩ := h
  exact ⟨h1, fun it hit => le_trans (h2 it hit) hpq, h3, h4, h5, h6⟩

/-- The expansion buckets are exactly those of phase order at least 4. -/
theorem isExpandBucket_iff (bk : Bucket) :
    isExpandBucket bk = true ↔ 4 ≤ bucketPlanOrder bk := by
  cases bk <;> simp [isExpandBucket, bucketPlanOrder]

/-- A segment step of bucket `b` preserves the planner invariant at
`b`'s phase order. -/
theorem SegAdds_planInv {b : Bucket} {ks : List VKind} {st st' : PlanState}
    (hseg : SegAdds b ks st st')
    (hks : VKind.expand ∈ ks → isExpandBucket b = true)
    (h : PlanInv (bucketPlanOrder b) st) :
    PlanInv (bucketPlanOrder b) st' := by
  obtain ⟨new, ho, hb, hf, hn, hs, hin, hq⟩ := hseg
  obtain ⟨h1, h2, h3, h4, h5, h6⟩ := h
  refine ⟨?_, ?_, ?_, ?_, ?_, ?_⟩
  · rw [ho]
    refine List.pairwise_append.mpr ⟨h1, ?_, ?_⟩
    · refine List.pairwise_of_forall_mem_list ?_
      intro a ha c hc
      rw [(hb a ha).1, (hb c hc).1]
    · intro a ha c hc
      rw [(hb c hc).1]
      exact h2 a ha
  · rw [ho]
    intro it hit
    rcases List.mem_append.mp hit with hm | hm
    · exact h2 it hm
    · rw [(hb it hm).1]
  · rw [ho, List.map_append, List.nodup_append]
    refine ⟨h3, hn, ?_⟩
    intro x hx1 hx2
    obtain ⟨it1, hit1, hxeq1⟩ := List.mem_map.mp hx1
    obtain ⟨it2, hit2, hxeq2⟩ := List.mem_map.mp hx2
    exact hf it2 hit2 (hxeq2 ▸ hxeq1 ▸ h4 it1 hit1)
  · rw [ho]
    intro it hit
    rcases List.mem_append.mp hit with hm | hm
    · exact hs _ (h4 it hm)
    · exact hin it hm
  · rw [ho]
    intro it hit hkind
    rcases List.mem_append.mp hit with hm | hm
    · exact h5 it hm hkind
    · rw [(hb it hm).1]
      exact hks (hkind ▸ (hb it hm).2)
  · rw [ho]
    intro it hit
    rcases List.mem_append.mp hit with hm | hm
    · exact h6 it hm
    · exact hq it hm

/-- The invariant holds of the empty starting state. -/
theorem planInv_zero : PlanInv 0 ⟨[], []⟩ := by
  refine ⟨List.Pairwise.nil, ?_, ?_, ?_, ?_, ?_⟩ <;> simp

/-- The pre-truncation planner state satisfies the full invariant. -/
theorem buildPlanState_inv (base legal : String) (others subs : List String)
    (inc : Bool) :
    PlanInv 7 (buildPlanState base legal others subs inc) := by
  unfold buildPlanState
  set t1 := planSeedPhase base .orig (⟨[], []⟩ : PlanState) with ht1
  set t2 := planSeedPhase legal .gleif_legal t1 with ht2
  set t3 := others.foldl (fun st nm => planSeedPhase nm .gleif_other st) t2 with ht3
  set t4 := subs.foldl (fun st sub => planSeedPhase sub .gleif_sub st) t3 with ht4
  set t5 := planExpandPhase legal .expand_legal t4 with ht5
  set t6 := others.foldl (fun st nm => planExpandPhase nm .expand_other st) t5 with ht6
  set t7 := planExpandPhase base .expand_orig t6 with ht7
  set t8 := subs.foldl (fun st sub => planExpandPhase sub .expand_sub st) t7 with ht8
  have i1 : PlanInv 0 t1 :=
    SegAdds_planInv (planSeedPhase_seg base .orig _)
      (by intro h; simp at h) planInv_zero
  have i2 : PlanInv 1 t2 :=
    SegAdds_planInv (planSeedPhase_seg legal .gleif_legal t1)
      (by intro h; simp at h) (PlanInv_mono (by decide) i1)
  have i3 : PlanInv 2 t3 :=
    SegAdds_planInv
      (foldl_seg .gleif_other [.seed] _ others
        (fun st a _ => planSeedPhase_seg a .gleif_other st) t2)
      (by intro h; simp at h) (PlanInv_mono (by decide) i2)
  have i4 : PlanInv 3 t4 :=
    SegAdds_planInv
      (foldl_seg .gleif_sub [.seed] _ subs
        (fun st a _ => planSeedPhase_seg a .gleif_sub st) t3)
      (by intro h; simp at h) (PlanInv_mono (by decide) i3)
  have i5 : PlanInv 4 t5 :=
    SegAdds_planInv (planExpandPhase_seg legal .expand_legal t4)
      (fun _ => rfl) (PlanInv_mono (by decide) i4)
  have i6 : PlanInv 5 t6 :=
    SegAdds_planInv
      (foldl_seg .expand_other [.expand, .seed] _ others
        (fun st a _ => planExpandPhase_seg a .expand_other st) t5)
      (fun _ => rfl) (PlanInv_mono (by decide) i5)
  have i7 : PlanInv 6 t7 :=
    SegAdds_planInv (planExpandPhase_seg base .expand_orig t6)
      (fun _ => rfl) (PlanInv_mono (by decide) i6)
  have i8 : PlanInv 7 t8 :=
    SegAdds_planInv
      (foldl_seg .expand_sub [.expand, .seed] _ subs
        (fun st a _ => planExpandPhase_seg a .expand_sub st) t7)
      (fun _ => rfl) (PlanInv_mono (by decide) i7)
  by_cases hinc : inc = true
  · rw [if_pos hinc]
    exact i8
  · rw [if_neg hinc]
    exact PlanInv_mono (by omega) i4

/-- The returned plan is a sublist (a prefix) of the pre-truncation state. -/
theorem build_sublist (base legal : String) (others subs : List String)
    (inc : Bool) (mx : Int) :
    List.Sublist (build_bucketed_variants base legal others subs inc mx)
      (buildPlanState base legal others subs inc).out := by
  show List.Sublist (if 0 < mx
      then (buildPlanState base legal others subs inc).out.take mx.toNat
      else (buildPlanState base legal others subs inc).out) _
  by_cases hmx : 0 < mx
  · rw [if_pos hmx]
    exact List.take_sublist _ _
  · rw [if_neg hmx]

/-- Later phases only append to the output of the first (orig-seed) phase. -/
theorem buildPlanState_out_extends (base legal : String)
    (others subs : List String) (inc : Bool) :
    ∃ r, (buildPlanState base legal others subs inc).out
      = (planSeedPhase base .orig ⟨[], []⟩).out ++ r := by
  unfold buildPlanState
  set t1 := planSeedPhase base .orig (⟨[], []⟩ : PlanState) with ht1
  set t2 := planSeedPhase legal .gleif_legal t1 with ht2
  set t3 := others.foldl (fun st nm => planSeedPhase nm .gleif_other st) t2 with ht3
  set t4 := subs.foldl (fun st sub => planSeedPhase sub .gleif_sub st) t3 with ht4
  set t5 := planExpandPhase legal .expand_legal t4 with ht5
  set t6 := others.foldl (fun st nm => planExpandPhase nm .expand_other st) t5 with ht6
  set t7 := planExpandPhase base .expand_orig t6 with ht7
  set t8 := subs.foldl (fun st sub => planExpandPhase sub .expand_sub st) t7 with ht8
  obtain ⟨n2, ho2, -, -, -, -, -, -⟩ := planSeedPhase_seg legal .gleif_legal t1
  obtain ⟨n3, ho3, -, -, -, -, -, -⟩ :=
    foldl_seg .gleif_other [.seed] _ others
      (fun st a _ => planSeedPhase_seg a .gleif_other st) t2
  obtain ⟨n4, ho4, -, -, -, -, -, -⟩ :=
    foldl_seg .gleif_sub [.seed] _ subs
      (fun st a _ => planSeedPhase_seg a .gleif_sub st) t3
  obtain ⟨n5, ho5, -, -, -, -, -, -⟩ := planExpandPhase_seg legal .expand_legal t4
  obtain ⟨n6, ho6, -, -, -, -, -, -⟩ :=
    foldl_seg .expand_other [.expand, .seed] _ others
      (fun st a _ => planExpandPhase_seg a .expand_other st) t5
  obtain ⟨n7, ho7, -, -, -, -, -, -⟩ := planExpandPhase_seg base .expand_orig t6
  obtain ⟨n8, ho8, -, -, -, -, -, -⟩ :=
    foldl_seg .expand_sub [.expand, .seed] _ subs
      (fun st a _ => planExpandPhase_seg a .expand_sub st) t7
  by_cases hinc : inc = true
  · rw [if_pos hinc]
    refine ⟨n2 ++ n3 ++ n4 ++ n5 ++ n6 ++ n7 ++ n8, ?_⟩
    rw [ho8, ho7, ho6, ho5, ho4, ho3, ho2]
    simp [List.append_assoc]
  · rw [if_neg hinc]
    refine ⟨n2 ++ n3 ++ n4, ?_⟩
    rw [ho4, ho3, ho2]
    simp [List.append_assoc]

/-- With a base name that squashes to something nonempty, the first (orig)
phase starts the output with the squashed base as an orig seed. -/
theorem planSeedPhase_head (base : String) (h : squash_ws base ≠ "") :
    ∃ r, (planSeedPhase base .orig ⟨[], []⟩).out
      = ⟨squash_ws base, .orig, .seed⟩ :: r := by
  have hbase : base ≠ "" := by
    intro hb
    exact h (by rw [hb]; rfl)
  unfold planSeedPhase
  rw [if_pos hbase]
  have hp : pushVariant base .orig .seed ⟨[], []⟩
      = ⟨[⟨squash_ws base, .orig, .seed⟩], [squash_ws base]⟩ := by
    unfold pushVariant
    rw [if_neg (by simp [h])]
    rfl
  rw [hp]
  obtain ⟨new, ho, -, -, -, -, -, -⟩ :=
    add_uc_variant_seg base .orig [.seed] (by simp)
      ⟨[⟨squash_ws base, .orig, .seed⟩], [squash_ws base]⟩
  exact ⟨new, by rw [ho]; rfl⟩


/-- C5 (corrected): the claim that every `seed`-kind candidate precedes every
`expand`-kind candidate is false — the uppercase variant recorded by
`_add_uc_variant` during an expansion phase carries kind `seed` and lands
after `expand` items: in the plan for base `""`, legal name `"acme ltd"`
(expansions on), the item at index 2 is an `expand` and the item at index 3
is a `seed` in the same expansion bucket. -/
theorem C5_seed_after_expand_counterexample :
    (build_bucketed_variants "" "acme ltd" [] [] true 0)[2]?
      = some ⟨"acme Limited", .expand_legal, .expand⟩ ∧
    (build_bucketed_variants "" "acme ltd" [] [] true 0)[3]?
      = some ⟨"ACME LIMITED", .expand_legal, .seed⟩ := by
  constructor
  · decide
  · decide

/-- C5 (amended): for every planner input, no two candidates share the same
name after whitespace squashing; candidates in seed buckets all precede
candidates in expansion buckets; and every `expand`-kind candidate sits in an
expansion bucket (but `seed`-kind uppercase variants may also sit in expansion
buckets, after `expand` items). -/
theorem C5_plan_invariants_amended (base legal : String)
    (others subs : List String) (inc : Bool) (mx : Int) :
    ((build_bucketed_variants base legal others subs inc mx).map
        (fun it => squash_ws it.name)).Nodup ∧
    List.Pairwise
      (fun a b => isExpandBucket a.bucket = true → isExpandBucket b.bucket = true)
      (build_bucketed_variants base legal others subs inc mx) ∧
    (∀ it ∈ build_bucketed_variants base legal others subs inc mx,
      it.kind = .expand → isExpandBucket it.bucket = true) := by
  obtain ⟨h1, h2, h3, h4, h5, h6⟩ := buildPlanState_inv base legal others subs inc
  have hsub := build_sublist base legal others subs inc mx
  refine ⟨?_, ?_, ?_⟩
  · have hmapsub := hsub.map (fun it => squash_ws it.name)
    have hnod : ((buildPlanState base legal others subs inc).out.map
        fun it => squash_ws it.name).Nodup := by
      rw [List.map_congr_left h6]
      exact h3
    exact List.Nodup.sublist hmapsub hnod
  · refine List.Pairwise.sublist hsub ?_
    refine h1.imp ?_
    intro a c hle
    rw [isExpandBucket_iff, isExpandBucket_iff]
    intro h4a
    omega
  · intro it hit
    exact h5 it (hsub.subset hit)

/-- C6 (corrected): the expansion buckets do not appear in the spec's
canonical order `expand_orig, expand_legal, expand_other, expand_sub` — the
code emits `expand_legal` before `expand_orig`: for base `"b ltd"` and legal
name `"a ltd"`, the `expand`-kind candidates are not sorted by the spec's
canonical bucket index. -/
theorem C6_spec_order_counterexample :
    ¬ List.Pairwise
      (fun a b => specCanonicalBucketIndex a.bucket ≤ specCanonicalBucketIndex b.bucket)
      ((build_bucketed_variants "b ltd" "a ltd" [] [] true 0).filter
        (fun it => it.kind == VKind.expand)) := by
  decide

/-- C6 (amended): for every planner input, the whole plan (hence each kind's
subsequence) is sorted by the bucket order the code actually emits:
`orig, gleif_legal, gleif_other, gleif_sub, expand_legal, expand_other,
expand_orig, expand_sub`. -/
theorem C6_bucket_order_amended (base legal : String)
    (others subs : List String) (inc : Bool) (mx : Int) :
    List.Pairwise
      (fun a b => bucketPlanOrder a.bucket ≤ bucketPlanOrder b.bucket)
      (build_bucketed_variants base legal others subs inc mx) :=
  List.Pairwise.sublist (build_sublist base legal others subs inc mx)
    (buildPlanState_inv base legal others subs inc).1

/-- C7 (corrected): the first element of a nonempty plan is the
whitespace-squashed base name, not the base name unchanged: with base
`"a  b"` (double space) the plan is nonempty and starts with `"a b"`. -/
theorem C7_first_element_counterexample :
    build_bucketed_variants "a  b" "" [] [] false 0
      = [⟨"a b", .orig, .seed⟩, ⟨"A B", .orig, .seed⟩] ∧ "a b" ≠ "a  b" := by
  constructor
  · decide
  · decide

/-- C7 (amended): whenever the base name squashes to a nonempty string, the
very first element of the plan is that squashed base name as an orig seed
(for every legal name, alias list, subsidiary list, expansion flag and
max_variants). -/
theorem C7_first_element_amended (base legal : String)
    (others subs : List String) (inc : Bool) (mx : Int)
    (h : squash_ws base ≠ "") :
    (build_bucketed_variants base legal others subs inc mx).head?
      = some ⟨squash_ws base, .orig, .seed⟩ := by
  obtain ⟨r, hr⟩ := buildPlanState_out_extends base legal others subs inc
  obtain ⟨r0, h0⟩ := planSeedPhase_head base h
  have hout : (buildPlanState base legal others subs inc).out
      = ⟨squash_ws base, .orig, .seed⟩ :: (r0 ++ r) := by
    rw [hr, h0]
    rfl
  show (if 0 < mx
      then (buildPlanState base legal others subs inc).out.take mx.toNat
      else (buildPlanState base legal others subs inc).out).head? = _
  by_cases hmx : 0 < mx
  · rw [if_pos hmx, hout]
    obtain ⟨k, hk⟩ : ∃ k, mx.toNat = k + 1 := ⟨mx.toNat - 1, by omega⟩
    rw [hk]
    simp
  · rw [if_neg hmx, hout]
    rfl

/-- Witness for the amended C7 at a concrete input. -/
theorem C7_first_element_amended_witness :
    squash_ws "x  y" ≠ "" ∧
    (build_bucketed_variants "x  y" "" [] [] false 0).head?
      = some ⟨squash_ws "x  y", .orig, .seed⟩ :=
  ⟨by decide, C7_first_element_amended "x  y" "" [] [] false 0 (by decide)⟩
